import Mathlib

set_option maxRecDepth 100000

/-!
A shallow embedding of the question extractors of the qp-maker repository.

The repository contains three near-duplicate Streamlit applications whose only
algorithmic component is the regular-expression extraction of multiple-choice
question records from the raw text returned by the language model:

* `app.py`, `parse_questions` (lines 132-161): two-phase extraction.  First
  `re.split(r'\*\*(\d+\.\s.*?)\*\*', raw_text, flags=re.DOTALL)` cuts the text
  at the bold question headers; then for each (header, content) pair
  `re.search(r'(A\).+?)\s*\*\*Correct Answer:\s*([A-D])\s*', content, re.DOTALL)`
  finds the options block and the answer letter, and
  `re.findall(r'([A-D]\).+?)(?=\s*[A-D]\)|\s*$)', options_block, re.DOTALL)`
  cuts the options block into individual options.  All of it case sensitive.
* `app1.py`, `parse_questions` (lines 182-211): a single monolithic pattern
  `\*\*(\d+\.\s.*?)\*\*\s*(A\).+?)\s*(B\).+?)\s*(C\).+?)\s*(D\).+?)\s*`
  `\*\*Correct Answer:\s*([A-D])\s*` with `re.DOTALL | re.IGNORECASE`,
  applied with `findall`.
* `app2.py`, inside `generate_questions` (lines 93-115): the same monolithic
  pattern except that the header is `\d+\. ` (a literal space instead of `\s`),
  plus a recovery path: when there is no match and the text contains three
  backticks, all occurrences of three backticks are removed, the text is
  stripped, and the pattern is retried.

Strings are modelled as `List Char`.  The concrete regular expressions are
hand-compiled into recursive matchers with Python's backtracking semantics:

* scanning for a match tries every start position from the left and takes the
  first that succeeds (`lazySearch` over suffixes);
* `.*?` and `.+?` (with DOTALL, so `.` matches every character including the
  newline) take the shortest extension after which the rest of the pattern
  matches; this is again `lazySearch` with the rest of the pattern as the
  continuation;
* every `\s*` of these patterns is immediately followed by a pattern element
  that can never match a whitespace character (a label letter, `*`, or `[A-D]`),
  so its backtracking is void and it deterministically consumes the maximal
  whitespace run (`skipWs`); the final `\s*` of a pattern is greedy and also
  consumes the maximal run;
* `\d+` is immediately followed by `\.`, and a digit never matches `\.`, so it
  deterministically consumes the maximal digit run.

Character classes (`\s`, `\d`, case folding) are modelled on ASCII, which
covers every character the patterns themselves mention; the upstream text is
ASCII in all scenarios considered here.
-/

/-- Python's `\s` (and `str.strip()`) whitespace on ASCII:
space, tab, newline, carriage return, vertical tab, form feed. -/
def isWs (c : Char) : Bool :=
  c = ' ' || c = '\t' || c = '\n' || c = '\r' || c = '\x0b' || c = '\x0c'

/-- Python's `\d` on ASCII. -/
def isDigitC (c : Char) : Bool :=
  '0' ≤ c && c ≤ '9'

/-- Maximal whitespace run consumed: a `\s*` whose successor can never match
a whitespace character. -/
def skipWs (l : List Char) : List Char :=
  l.dropWhile isWs

/-- Python's `str.strip()`. -/
def trimWs (l : List Char) : List Char :=
  ((l.dropWhile isWs).reverse.dropWhile isWs).reverse

/-- ASCII lower-casing, the effect of `re.IGNORECASE` on the characters that
occur in the patterns. -/
def lowerc (c : Char) : Char :=
  match c with
  | 'A' => 'a' | 'B' => 'b' | 'C' => 'c' | 'D' => 'd' | 'E' => 'e' | 'F' => 'f'
  | 'G' => 'g' | 'H' => 'h' | 'I' => 'i' | 'J' => 'j' | 'K' => 'k' | 'L' => 'l'
  | 'M' => 'm' | 'N' => 'n' | 'O' => 'o' | 'P' => 'p' | 'Q' => 'q' | 'R' => 'r'
  | 'S' => 's' | 'T' => 't' | 'U' => 'u' | 'V' => 'v' | 'W' => 'w' | 'X' => 'x'
  | 'Y' => 'y' | 'Z' => 'z' | c => c

/-- Case-insensitive character comparison (`re.IGNORECASE`). -/
def eqCI (c d : Char) : Bool :=
  lowerc c = lowerc d

/-- Match a literal: if `pat` is an initial segment of the input, return the
remainder. -/
def dropLit : List Char → List Char → Option (List Char)
  | [], l => some l
  | _ :: _, [] => none
  | p :: ps, c :: cs => if c = p then dropLit ps cs else none

/-- Match a literal up to letter case. -/
def dropLitCI : List Char → List Char → Option (List Char)
  | [], l => some l
  | _ :: _, [] => none
  | p :: ps, c :: cs => if eqCI c p then dropLitCI ps cs else none

/-- Shortest-first search: find the split `l = pre ++ v` with the shortest
`pre` such that the continuation `κ` succeeds on `v`, returning `pre` and the
continuation's result.  This is at once the semantics of a lazy `.*?` followed
by the rest of the pattern, and of the engine's scan for the leftmost match
start. -/
def lazySearch (κ : List Char → Option α) : List Char → Option (List Char × α)
  | [] => (κ []).map fun a => ([], a)
  | c :: t =>
    match κ (c :: t) with
    | some a => some ([], a)
    | none => (lazySearch κ t).map fun p => (c :: p.1, p.2)

/-- Semantics of a lazy `.+?` followed by the rest of the pattern: at least one
character, then shortest-first. -/
def lazySearch1 (κ : List Char → Option α) : List Char → Option (List Char × α)
  | [] => none
  | c :: t => (lazySearch κ t).map fun p => (c :: p.1, p.2)

/-- The six captured groups of the monolithic pattern of `app1.py`/`app2.py`. -/
structure Groups where
  q : List Char
  oA : List Char
  oB : List Char
  oC : List Char
  oD : List Char
  ans : Char
deriving DecidableEq, Repr

/-- `[A-D]` under `re.IGNORECASE`. -/
def ansLetter (c : Char) : Bool :=
  c = 'A' || c = 'B' || c = 'C' || c = 'D' ||
  c = 'a' || c = 'b' || c = 'c' || c = 'd'

/-- The literal `**Correct Answer:` as compared case-insensitively. -/
def caLit : List Char :=
  ['*', '*', 'c', 'o', 'r', 'r', 'e', 'c', 't', ' ',
   'a', 'n', 's', 'w', 'e', 'r', ':']

/-- Tail of the monolithic pattern after option D's group:
`\*\*Correct Answer:\s*([A-D])\s*` (case-insensitive).  Returns the captured
answer letter and the remainder after the final greedy `\s*`. -/
def tailAns (l : List Char) : Option (Char × List Char) :=
  (dropLitCI caLit l).bind fun l1 =>
    match skipWs l1 with
    | [] => none
    | c :: l2 => if ansLetter c then some (c, skipWs l2) else none

/-- One option group `(X\).+?)\s*` of the monolithic pattern, followed by the
continuation `κ` for the rest of the pattern: the label letter (up to case),
a literal `)`, then a lazy nonempty content ending where `κ` first succeeds
after the intervening `\s*`.  Returns the captured group (label included) and
the continuation's result. -/
def tailOpt (lab : Char) (κ : List Char → Option α) (l : List Char) :
    Option (List Char × α) :=
  match l with
  | c1 :: c2 :: t =>
    if eqCI c1 lab && c2 = ')' then
      (lazySearch1 (fun v => κ (skipWs v)) t).map fun p => (c1 :: c2 :: p.1, p.2)
    else none
  | _ => none

/-- Groups D and 6 of the monolithic pattern. -/
def tailD : List Char → Option (List Char × (Char × List Char)) :=
  tailOpt 'D' tailAns

/-- Groups C, D and 6 of the monolithic pattern. -/
def tailC : List Char → Option (List Char × (List Char × (Char × List Char))) :=
  tailOpt 'C' tailD

/-- Groups B, C, D and 6 of the monolithic pattern. -/
def tailB :
    List Char →
      Option (List Char × (List Char × (List Char × (Char × List Char)))) :=
  tailOpt 'B' tailC

/-- Groups A, B, C, D and 6 of the monolithic pattern. -/
def tailA :
    List Char →
      Option
        (List Char ×
          (List Char × (List Char × (List Char × (Char × List Char))))) :=
  tailOpt 'A' tailB

/-- The two-star literal. -/
def ssLit : List Char := ['*', '*']

namespace Mono

/-- A match of the whole monolithic pattern anchored at the current position:
`\*\*(\d+\.\s.*?)\*\*\s*` (with `hdrSep` the one-character class after the
dot: `\s` in `app1.py`, a literal space in `app2.py`), then the option groups
and the answer tail.  Returns the captured groups and the remainder of the
input after the match. -/
def matchAt (hdrSep : Char → Bool) (l : List Char) :
    Option (Groups × List Char) :=
  (dropLit ssLit l).bind fun l1 =>
    let ds := l1.takeWhile isDigitC
    let l2 := l1.dropWhile isDigitC
    if ds = [] then none
    else
      match l2 with
      | c :: w :: l3 =>
        if c = '.' && hdrSep w then
          (lazySearch
              (fun v => (dropLit ssLit v).bind fun v1 => tailA (skipWs v1))
              l3).map fun p =>
            (⟨ds ++ c :: w :: p.1,
              p.2.1, p.2.2.1, p.2.2.2.1, p.2.2.2.2.1, p.2.2.2.2.2.1⟩,
             p.2.2.2.2.2.2)
        else none
      | _ => none

/-- `findall` scanning with explicit fuel: try a match at the current
position; on success emit it and continue after it, otherwise move one
character right.  Every step shortens the input, so `length + 1` fuel is
exact. -/
def scanF (hdrSep : Char → Bool) : Nat → List Char → List Groups
  | 0, _ => []
  | fuel + 1, l =>
    match matchAt hdrSep l with
    | some (g, rest) => g :: scanF hdrSep fuel rest
    | none =>
      match l with
      | [] => []
      | _ :: t => scanF hdrSep fuel t

/-- `findall` of the monolithic pattern. -/
def scanQ (hdrSep : Char → Bool) (l : List Char) : List Groups :=
  scanF hdrSep (l.length + 1) l

end Mono

/-- The question record dictionary built by all three variants:
`question_text`, `options_text` (the option lines joined by a newline),
`correct_answer`. -/
structure Question where
  question_text : String
  options_text : String
  correct_answer : String
deriving DecidableEq, Repr

/-- Record construction of `app1.py`/`app2.py` from a match:
`match[0].strip()`, `"\n".join(m.strip() for m in match[1:5])`,
`match[5].strip()` (the answer letter is never whitespace, so its strip is
the identity). -/
def mkQuestion (g : Groups) : Question :=
  { question_text := String.mk (trimWs g.q)
    options_text :=
      String.mk
        (trimWs g.oA ++ '\n' ::
          (trimWs g.oB ++ '\n' :: (trimWs g.oC ++ '\n' :: trimWs g.oD)))
    correct_answer := String.mk [g.ans] }

namespace App1

/-- `parse_questions` of `app1.py`. -/
def parse_questions (raw_text : String) : List Question :=
  (Mono.scanQ isWs raw_text.data).map mkQuestion

end App1

/-- The literal-space header class of `app2.py`. -/
def isSp (c : Char) : Bool := c = ' '

/-- The backtick character (\x60). -/
def tick : Char := Char.ofNat 96

/-- Python's `raw_text.replace("```", "")`: left-to-right removal of
non-overlapping triples of backticks. -/
def removeTicks : List Char → List Char
  | [] => []
  | [c] => [c]
  | [c1, c2] => [c1, c2]
  | c1 :: c2 :: c3 :: t =>
    if c1 = tick && c2 = tick && c3 = tick then removeTicks t
    else c1 :: removeTicks (c2 :: c3 :: t)

/-- Python's `"```" in raw_text`. -/
def containsTicks : List Char → Bool
  | [] => false
  | c :: t =>
    (c = tick &&
      (match t with
       | c2 :: c3 :: _ => c2 = tick && c3 = tick
       | _ => false)) ||
    containsTicks t

namespace App2

/-- The extraction portion of `generate_questions` of `app2.py` (lines
93-115): the monolithic pattern with a literal-space header, and the
code-fence recovery path when there is no match and the text contains
three backticks. -/
def generate_questions (raw_text : String) : List Question :=
  let l := raw_text.data
  let ms := Mono.scanQ isSp l
  let ms2 :=
    if ms = [] && containsTicks l then
      Mono.scanQ isSp (trimWs (removeTicks l))
    else ms
  ms2.map mkQuestion

end App2

namespace App

/-- A match of the header pattern `\*\*(\d+\.\s.*?)\*\*` of `app.py`'s
`re.split` anchored at the current position.  Returns the captured group and
the remainder after the closing stars. -/
def matchHdr (l : List Char) : Option (List Char × List Char) :=
  (dropLit ssLit l).bind fun l1 =>
    let ds := l1.takeWhile isDigitC
    let l2 := l1.dropWhile isDigitC
    if ds = [] then none
    else
      match l2 with
      | c :: w :: l3 =>
        if c = '.' && isWs w then
          (lazySearch (fun v => dropLit ssLit v) l3).map fun p =>
            (ds ++ c :: w :: p.1, p.2)
        else none
      | _ => none

/-- Leftmost header match: the text before it, the captured group, and the
remainder after it. -/
def findHdr (l : List Char) :
    Option (List Char × (List Char × List Char)) :=
  lazySearch matchHdr l

/-- `re.split` on the header pattern, paired up the way `parse_questions`
walks the resulting list: one `(captured header, following content)` pair per
match, the content of a match running up to the start of the next match (or
the end of the input). -/
def splitF : Nat → List Char → List (List Char × List Char)
  | 0, _ => []
  | fuel + 1, l =>
    match findHdr l with
    | none => []
    | some (_, cap, rest) =>
      let content :=
        match findHdr rest with
        | none => rest
        | some (pre2, _, _) => pre2
      (cap, content) :: splitF fuel rest

/-- The `(header, content)` pairs of `app.py`'s split. -/
def splitPairs (l : List Char) : List (List Char × List Char) :=
  splitF (l.length + 1) l

/-- The case-sensitive literal `**Correct Answer:`. -/
def caLitCS : List Char :=
  ['*', '*', 'C', 'o', 'r', 'r', 'e', 'c', 't', ' ',
   'A', 'n', 's', 'w', 'e', 'r', ':']

/-- `[A-D]`, case sensitive. -/
def upABCD (c : Char) : Bool :=
  c = 'A' || c = 'B' || c = 'C' || c = 'D'

/-- Tail of `app.py`'s search pattern:
`\*\*Correct Answer:\s*([A-D])\s*`, case sensitive. -/
def ansCS (l : List Char) : Option (Char × List Char) :=
  (dropLit caLitCS l).bind fun l1 =>
    match skipWs l1 with
    | [] => none
    | c :: l2 => if upABCD c then some (c, skipWs l2) else none

/-- `app.py`'s search pattern `(A\).+?)\s*\*\*Correct Answer:\s*([A-D])\s*`
anchored at the current position: returns group 1 (the options block) and
group 2 (the answer letter). -/
def matchOA (l : List Char) : Option (List Char × Char) :=
  match l with
  | c1 :: c2 :: t =>
    if c1 = 'A' && c2 = ')' then
      (lazySearch1 (fun v => ansCS (skipWs v)) t).map fun p =>
        (c1 :: c2 :: p.1, p.2.1)
    else none
  | _ => none

/-- `re.search` with `app.py`'s options-and-answer pattern: leftmost match. -/
def findOA (l : List Char) : Option (List Char × Char) :=
  (lazySearch matchOA l).map fun p => p.2

/-- The lookahead `(?=\s*[A-D]\)|\s*$)` of `app.py`'s option pattern:
either whitespace then another label, or only whitespace up to the end. -/
def lookOpt (v : List Char) : Bool :=
  (match skipWs v with
   | c1 :: c2 :: _ => upABCD c1 && c2 = ')'
   | _ => false) ||
  (skipWs v).isEmpty

/-- One match of `([A-D]\).+?)(?=\s*[A-D]\)|\s*$)` anchored at the current
position: the captured option and the remainder (the lookahead consumes
nothing). -/
def matchOpt (l : List Char) : Option (List Char × List Char) :=
  match l with
  | c1 :: c2 :: t =>
    if upABCD c1 && c2 = ')' then
      (lazySearch1 (fun v => if lookOpt v then some v else none) t).map
        fun p => (c1 :: c2 :: p.1, p.2)
    else none
  | _ => none

/-- `findall` scanning for the option pattern, with fuel. -/
def optsF : Nat → List Char → List (List Char)
  | 0, _ => []
  | fuel + 1, l =>
    match matchOpt l with
    | some (o, rest) => o :: optsF fuel rest
    | none =>
      match l with
      | [] => []
      | _ :: t => optsF fuel t

/-- `re.findall` with the option pattern on the options block. -/
def findOpts (l : List Char) : List (List Char) :=
  optsF (l.length + 1) l

/-- `"\n".join(opt.strip() for opt in options_list)`. -/
def joinStrip : List (List Char) → List Char
  | [] => []
  | [o] => trimWs o
  | o :: rest => trimWs o ++ '\n' :: joinStrip rest

/-- `parse_questions` of `app.py`. -/
def parse_questions (raw_text : String) : List Question :=
  (splitPairs raw_text.data).filterMap fun qc =>
    (findOA qc.2).map fun oa =>
      { question_text := String.mk (trimWs qc.1)
        options_text := String.mk (joinStrip (findOpts oa.1))
        correct_answer := String.mk [oa.2] }

end App

/-! ### Basic properties of the matching combinators -/

theorem dropLit_eq_some {pat l r : List Char} :
    dropLit pat l = some r ↔ l = pat ++ r := by
  induction pat generalizing l with
  | nil => simp [dropLit]
  | cons p ps ih =>
    cases l with
    | nil => simp [dropLit]
    | cons c cs =>
      by_cases h : c = p
      · subst h
        simp [dropLit, ih]
      · simp [dropLit, h]

theorem dropLitCI_suff {pat l r : List Char} (h : dropLitCI pat l = some r) :
    r <:+ l ∧ r.length + pat.length = l.length := by
  induction pat generalizing l with
  | nil =>
    simp only [dropLitCI, Option.some.injEq] at h
    subst h
    exact ⟨List.suffix_refl _, by simp⟩
  | cons p ps ih =>
    cases l with
    | nil => simp [dropLitCI] at h
    | cons c cs =>
      simp only [dropLitCI] at h
      split at h
      · obtain ⟨hs, hl⟩ := ih h
        exact ⟨hs.trans (List.suffix_cons c cs), by simpa using by omega⟩
      · exact absurd h (by simp)

theorem lazySearch_some {α : Type} {κ : List Char → Option α}
    {l pre : List Char} {a : α} (h : lazySearch κ l = some (pre, a)) :
    ∃ v, v <:+ l ∧ l = pre ++ v ∧ κ v = some a := by
  induction l generalizing pre with
  | nil =>
    simp only [lazySearch, Option.map_eq_some'] at h
    obtain ⟨a', ha', hpa⟩ := h
    cases hpa
    exact ⟨[], List.suffix_refl _, rfl, ha'⟩
  | cons c t ih =>
    simp only [lazySearch] at h
    cases hk : κ (c :: t) with
    | some a' =>
      rw [hk] at h
      cases h
      exact ⟨c :: t, List.suffix_refl _, rfl, hk⟩
    | none =>
      rw [hk] at h
      simp only [Option.map_eq_some'] at h
      obtain ⟨⟨pre', a'⟩, hrec, hpa⟩ := h
      cases hpa
      obtain ⟨v, hsuff, heq, hv⟩ := ih hrec
      exact ⟨v, hsuff.trans (List.suffix_cons c t), by simp [heq], hv⟩

theorem lazySearch1_some {α : Type} {κ : List Char → Option α}
    {l pre : List Char} {a : α} (h : lazySearch1 κ l = some (pre, a)) :
    ∃ v, v <:+ l ∧ l = pre ++ v ∧ κ v = some a ∧ pre ≠ [] := by
  cases l with
  | nil => simp [lazySearch1] at h
  | cons c t =>
    simp only [lazySearch1, Option.map_eq_some'] at h
    obtain ⟨⟨pre', a'⟩, hrec, hpa⟩ := h
    cases hpa
    obtain ⟨v, hsuff, heq, hv⟩ := lazySearch_some hrec
    exact ⟨v, hsuff.trans (List.suffix_cons c t), by simp [heq], hv, by simp⟩

theorem lazySearch_skip {α : Type} (κ : List Char → Option α)
    (junk X : List Char)
    (h : ∀ j, j <:+ junk → j ≠ [] → κ (j ++ X) = none) :
    lazySearch κ (junk ++ X) =
      (lazySearch κ X).map fun p => (junk ++ p.1, p.2) := by
  induction junk with
  | nil =>
    cases hx : lazySearch κ X <;> simp [hx]
  | cons c j ih =>
    have hfail : κ (c :: (j ++ X)) = none := by
      have := h (c :: j) (List.suffix_refl _) (by simp)
      simpa using this
    have ih' := ih fun j' hj' hne => h j' (hj'.trans (List.suffix_cons c j)) hne
    simp only [List.cons_append, lazySearch, List.append_eq]
    rw [hfail, ih']
    cases lazySearch κ X <;> simp

theorem lazySearch_none {α : Type} {κ : List Char → Option α} {l : List Char}
    (h : ∀ v, v <:+ l → κ v = none) : lazySearch κ l = none := by
  induction l with
  | nil => simp [lazySearch, h [] (List.suffix_refl _)]
  | cons c t ih =>
    simp only [lazySearch, h (c :: t) (List.suffix_refl _)]
    rw [ih fun v hv => h v (hv.trans (List.suffix_cons c t))]
    rfl

theorem skipWs_suffix (l : List Char) : skipWs l <:+ l :=
  List.dropWhile_suffix isWs

theorem skipWs_cons_not {c : Char} (h : isWs c = false) (l : List Char) :
    skipWs (c :: l) = c :: l := by
  simp [skipWs, List.dropWhile_cons, h]

theorem skipWs_append_ws {ws : List Char} (h : ∀ c ∈ ws, isWs c = true)
    (x : List Char) : skipWs (ws ++ x) = skipWs x := by
  induction ws with
  | nil => rfl
  | cons c t ih =>
    simp only [List.cons_append, skipWs, List.dropWhile_cons,
      h c (by simp), if_true]
    exact ih fun d hd => h d (by simp [hd])

theorem takeWhile_digits {ds : List Char} (h : ∀ c ∈ ds, isDigitC c = true)
    {y : Char} (hy : isDigitC y = false) (rest : List Char) :
    (ds ++ y :: rest).takeWhile isDigitC = ds ∧
      (ds ++ y :: rest).dropWhile isDigitC = y :: rest := by
  constructor
  · rw [List.takeWhile_append_of_pos h]
    simp [List.takeWhile_cons, hy]
  · rw [List.dropWhile_append]
    have : (ds.dropWhile isDigitC) = [] := List.dropWhile_eq_nil_iff.mpr h
    simp [this, List.dropWhile_cons, hy]

/-! ### The remainder of a successful match is a strictly shorter suffix -/

theorem tailAns_suff {l : List Char} {p : Char × List Char}
    (h : tailAns l = some p) : p.2 <:+ l ∧ p.2.length + 17 ≤ l.length := by
  simp only [tailAns, Option.bind_eq_some] at h
  obtain ⟨l1, h1, h2⟩ := h
  obtain ⟨hs1, hlen1⟩ := dropLitCI_suff h1
  simp only [caLit, List.length_cons, List.length_nil] at hlen1
  cases hsw : skipWs l1 with
  | nil =>
    rw [hsw] at h2
    exact absurd h2 (by simp)
  | cons d l2 =>
    rw [hsw] at h2
    have h2' : (if ansLetter d then some (d, skipWs l2) else none) = some p := h2
    by_cases hd : ansLetter d
    · rw [if_pos hd] at h2'
      have hp : (d, skipWs l2) = p := by simpa using h2'
      subst hp
      have hs2 : d :: l2 <:+ l1 := hsw ▸ skipWs_suffix l1
      have hs3 : skipWs l2 <:+ l2 := skipWs_suffix l2
      refine ⟨((hs3.trans (List.suffix_cons d l2)).trans hs2).trans hs1, ?_⟩
      have e1 := hs2.length_le
      have e2 := hs3.length_le
      simp only [List.length_cons] at e1
      show (skipWs l2).length + 17 ≤ l.length
      omega
    · rw [if_neg hd] at h2'
      exact absurd h2' (by simp)

theorem tailOpt_suff {α : Type} (f : α → List Char) (lab : Char)
    (κ : List Char → Option α) (hκ : ∀ v a, κ v = some a → f a <:+ v) :
    ∀ {l : List Char} {p : List Char × α},
      tailOpt lab κ l = some p → f p.2 <:+ l := by
  intro l p h
  cases l with
  | nil => simp [tailOpt] at h
  | cons c1 t1 =>
    cases t1 with
    | nil => simp [tailOpt] at h
    | cons c2 t =>
      simp only [tailOpt] at h
      split at h
      · simp only [Option.map_eq_some'] at h
        obtain ⟨⟨pre, a⟩, hls, heq⟩ := h
        subst heq
        obtain ⟨v, hv, hEq, hkv, hne⟩ := lazySearch1_some hls
        have hfa : f a <:+ skipWs v := hκ (skipWs v) a hkv
        exact ((hfa.trans (skipWs_suffix v)).trans hv).trans
          ((List.suffix_cons c2 t).trans (List.suffix_cons c1 (c2 :: t)))
      · exact absurd h (by simp)

theorem tailD_suff {l : List Char} {p : List Char × (Char × List Char)}
    (h : tailD l = some p) : p.2.2 <:+ l :=
  tailOpt_suff (fun a => a.2) 'D' tailAns
    (fun v a hv => (tailAns_suff hv).1) h

theorem tailC_suff {l : List Char}
    {p : List Char × (List Char × (Char × List Char))}
    (h : tailC l = some p) : p.2.2.2 <:+ l :=
  tailOpt_suff (fun a => a.2.2) 'C' tailD (fun v a hv => tailD_suff hv) h

theorem tailB_suff {l : List Char}
    {p : List Char × (List Char × (List Char × (Char × List Char)))}
    (h : tailB l = some p) : p.2.2.2.2 <:+ l :=
  tailOpt_suff (fun a => a.2.2.2) 'B' tailC (fun v a hv => tailC_suff hv) h

theorem tailA_suff {l : List Char}
    {p : List Char ×
        (List Char × (List Char × (List Char × (Char × List Char))))}
    (h : tailA l = some p) : p.2.2.2.2.2 <:+ l :=
  tailOpt_suff (fun a => a.2.2.2.2) 'A' tailB (fun v a hv => tailB_suff hv) h

theorem Mono.matchAt_lt {hs : Char → Bool} {l : List Char}
    {g : Groups} {r : List Char} (h : Mono.matchAt hs l = some (g, r)) :
    r.length < l.length := by
  simp only [Mono.matchAt, Option.bind_eq_some] at h
  obtain ⟨l1, h1, h2⟩ := h
  have hl1 : l = '*' :: '*' :: l1 := by
    simpa [ssLit] using dropLit_eq_some.mp h1
  split at h2
  · exact absurd h2 (by simp)
  · split at h2
    · rename_i c w l3 heq
      split at h2
      · simp only [Option.map_eq_some'] at h2
        obtain ⟨⟨qtl, a⟩, hls, hout⟩ := h2
        have hr : r = a.2.2.2.2.2 := congrArg Prod.snd hout.symm
        obtain ⟨v, hv, hEq, hkv⟩ := lazySearch_some hls
        simp only [Option.bind_eq_some] at hkv
        obtain ⟨v1, hv1, htail⟩ := hkv
        have hvv1 : v = '*' :: '*' :: v1 := by
          simpa [ssLit] using dropLit_eq_some.mp hv1
        have h5 : a.2.2.2.2.2 <:+ skipWs v1 := tailA_suff htail
        have l5 := h5.length_le
        have l6 := (skipWs_suffix v1).length_le
        have l7 := hv.length_le
        have l8 := (List.dropWhile_suffix isDigitC (l := l1)).length_le
        rw [heq] at l8
        subst hr hl1 hvv1
        simp only [List.length_cons] at l7 l8 ⊢
        omega
      · exact absurd h2 (by simp)
    · exact absurd h2 (by simp)

theorem App.matchHdr_lt {l : List Char} {p : List Char × List Char}
    (h : App.matchHdr l = some p) : p.2.length + 2 < l.length := by
  simp only [App.matchHdr, Option.bind_eq_some] at h
  obtain ⟨l1, h1, h2⟩ := h
  have hl1 : l = '*' :: '*' :: l1 := by
    simpa [ssLit] using dropLit_eq_some.mp h1
  split at h2
  · exact absurd h2 (by simp)
  · split at h2
    · rename_i c w l3 heq
      split at h2
      · simp only [Option.map_eq_some'] at h2
        obtain ⟨⟨qtl, rest⟩, hls, hout⟩ := h2
        have hr : p.2 = rest := (congrArg Prod.snd hout).symm
        obtain ⟨v, hv, hEq, hkv⟩ := lazySearch_some hls
        have hvv1 : v = '*' :: '*' :: rest := by
          simpa [ssLit] using dropLit_eq_some.mp hkv
        have l7 := hv.length_le
        have l8 := (List.dropWhile_suffix isDigitC (l := l1)).length_le
        rw [heq] at l8
        subst hr hl1 hvv1
        simp only [List.length_cons] at l7 l8 ⊢
        omega
      · exact absurd h2 (by simp)
    · exact absurd h2 (by simp)

theorem App.findHdr_lt {l : List Char}
    {p : List Char × (List Char × List Char)}
    (h : App.findHdr l = some p) : p.2.2.length < l.length := by
  obtain ⟨v, hv, hEq, hkv⟩ := lazySearch_some h
  have h2 := App.matchHdr_lt hkv
  have := hv.length_le
  omega

theorem App.matchOpt_lt {l : List Char} {p : List Char × List Char}
    (h : App.matchOpt l = some p) : p.2.length < l.length := by
  cases l with
  | nil => simp [App.matchOpt] at h
  | cons c1 t1 =>
    cases t1 with
    | nil => simp [App.matchOpt] at h
    | cons c2 t =>
      simp only [App.matchOpt] at h
      split at h
      · simp only [Option.map_eq_some'] at h
        obtain ⟨⟨pre, v⟩, hls, heq⟩ := h
        obtain ⟨v', hv, hEq, hkv, hne⟩ := lazySearch1_some hls
        have hvv : v' = v := by
          by_cases hl : lookOpt v'
          · simpa [hl] using hkv
          · simp [hl] at hkv
        have hp2 : p.2 = v := (congrArg Prod.snd heq).symm
        subst hvv
        rw [hp2]
        have := hv.length_le
        simp only [List.length_cons]
        omega
      · exact absurd h (by simp)

/-! ### Fuel irrelevance of the scanners -/

theorem Mono.scanF_congr (hs : Char → Bool) :
    ∀ f1 f2 : Nat, ∀ l : List Char, l.length < f1 → l.length < f2 →
      Mono.scanF hs f1 l = Mono.scanF hs f2 l := by
  intro f1
  induction f1 with
  | zero => intro f2 l h1 _; exact absurd h1 (by omega)
  | succ f ih =>
    intro f2 l h1 h2
    cases f2 with
    | zero => exact absurd h2 (by omega)
    | succ f2' =>
      cases hm : Mono.matchAt hs l with
      | some p =>
        obtain ⟨g, rest⟩ := p
        have hlt := Mono.matchAt_lt hm
        simp only [Mono.scanF, hm]
        rw [ih f2' rest (by omega) (by omega)]
      | none =>
        cases l with
        | nil => simp [Mono.scanF, hm]
        | cons c t =>
          simp only [Mono.scanF, hm]
          simp only [List.length_cons] at h1 h2
          exact ih f2' t (by omega) (by omega)

theorem Mono.scanQ_eq (hs : Char → Bool) {l : List Char} {f : Nat}
    (h : l.length < f) : Mono.scanQ hs l = Mono.scanF hs f l :=
  Mono.scanF_congr hs (l.length + 1) f l (by omega) h

theorem App.splitF_congr :
    ∀ f1 f2 : Nat, ∀ l : List Char, l.length < f1 → l.length < f2 →
      App.splitF f1 l = App.splitF f2 l := by
  intro f1
  induction f1 with
  | zero => intro f2 l h1 _; exact absurd h1 (by omega)
  | succ f ih =>
    intro f2 l h1 h2
    cases f2 with
    | zero => exact absurd h2 (by omega)
    | succ f2' =>
      cases hm : App.findHdr l with
      | some p =>
        obtain ⟨pre, cap, rest⟩ := p
        have hlt := App.findHdr_lt hm
        simp only at hlt
        simp only [App.splitF, hm]
        rw [ih f2' rest (by omega) (by omega)]
      | none => simp [App.splitF, hm]

theorem App.splitPairs_eq {l : List Char} {f : Nat} (h : l.length < f) :
    App.splitPairs l = App.splitF f l :=
  App.splitF_congr (l.length + 1) f l (by omega) h

theorem App.optsF_congr :
    ∀ f1 f2 : Nat, ∀ l : List Char, l.length < f1 → l.length < f2 →
      App.optsF f1 l = App.optsF f2 l := by
  intro f1
  induction f1 with
  | zero => intro f2 l h1 _; exact absurd h1 (by omega)
  | succ f ih =>
    intro f2 l h1 h2
    cases f2 with
    | zero => exact absurd h2 (by omega)
    | succ f2' =>
      cases hm : App.matchOpt l with
      | some p =>
        obtain ⟨o, rest⟩ := p
        have hlt := App.matchOpt_lt hm
        simp only at hlt
        simp only [App.optsF, hm]
        rw [ih f2' rest (by omega) (by omega)]
      | none =>
        cases l with
        | nil => simp [App.optsF, hm]
        | cons c t =>
          simp only [App.optsF, hm]
          simp only [List.length_cons] at h1 h2
          exact ih f2' t (by omega) (by omega)

theorem App.findOpts_eq {l : List Char} {f : Nat} (h : l.length < f) :
    App.findOpts l = App.optsF f l :=
  App.optsF_congr (l.length + 1) f l (by omega) h

/-! ### Shape of the captured groups: soundness of the monolithic pattern -/

/-- An option group as captured by the monolithic pattern: its label letter
(up to case), a closing parenthesis, and at least one character of content. -/
def LabeledOpt (lab : Char) (o : List Char) : Prop :=
  ∃ c t, o = c :: ')' :: t ∧ eqCI c lab = true ∧ t ≠ []

theorem tailOpt_shape {α : Type} {lab : Char} {κ : List Char → Option α}
    {l : List Char} {p : List Char × α} (h : tailOpt lab κ l = some p) :
    LabeledOpt lab p.1 := by
  cases l with
  | nil => simp [tailOpt] at h
  | cons c1 t1 =>
    cases t1 with
    | nil => simp [tailOpt] at h
    | cons c2 t =>
      simp only [tailOpt] at h
      split at h
      · rename_i hcond
        simp only [Bool.and_eq_true, decide_eq_true_eq] at hcond
        simp only [Option.map_eq_some'] at h
        obtain ⟨⟨pre, a⟩, hls, heq⟩ := h
        obtain ⟨v, hv, hEq, hkv, hne⟩ := lazySearch1_some hls
        subst heq
        exact ⟨c1, pre, by simp [hcond.2], hcond.1, hne⟩
      · exact absurd h (by simp)

theorem tailOpt_snd {α : Type} {lab : Char} {κ : List Char → Option α}
    {l : List Char} {p : List Char × α} (h : tailOpt lab κ l = some p) :
    ∃ v, κ v = some p.2 := by
  cases l with
  | nil => simp [tailOpt] at h
  | cons c1 t1 =>
    cases t1 with
    | nil => simp [tailOpt] at h
    | cons c2 t =>
      simp only [tailOpt] at h
      split at h
      · simp only [Option.map_eq_some'] at h
        obtain ⟨⟨pre, a⟩, hls, heq⟩ := h
        obtain ⟨v, hv, hEq, hkv, hne⟩ := lazySearch1_some hls
        subst heq
        exact ⟨skipWs v, hkv⟩
      · exact absurd h (by simp)

theorem tailAns_shape {l : List Char} {p : Char × List Char}
    (h : tailAns l = some p) : ansLetter p.1 = true := by
  simp only [tailAns, Option.bind_eq_some] at h
  obtain ⟨l1, h1, h2⟩ := h
  cases hsw : skipWs l1 with
  | nil => rw [hsw] at h2; exact absurd h2 (by simp)
  | cons d l2 =>
    rw [hsw] at h2
    have h2' : (if ansLetter d then some (d, skipWs l2) else none) = some p := h2
    by_cases hd : ansLetter d
    · rw [if_pos hd] at h2'
      have hp : (d, skipWs l2) = p := by simpa using h2'
      rw [← hp]
      exact hd
    · rw [if_neg hd] at h2'
      exact absurd h2' (by simp)

theorem tailD_shape {l : List Char} {p : List Char × (Char × List Char)}
    (h : tailD l = some p) :
    LabeledOpt 'D' p.1 ∧ ansLetter p.2.1 = true := by
  refine ⟨tailOpt_shape h, ?_⟩
  obtain ⟨v, hv⟩ := tailOpt_snd h
  exact tailAns_shape hv

theorem tailC_shape {l : List Char}
    {p : List Char × (List Char × (Char × List Char))}
    (h : tailC l = some p) :
    LabeledOpt 'C' p.1 ∧ LabeledOpt 'D' p.2.1 ∧
      ansLetter p.2.2.1 = true := by
  refine ⟨tailOpt_shape h, ?_⟩
  obtain ⟨v, hv⟩ := tailOpt_snd h
  exact tailD_shape hv

theorem tailB_shape {l : List Char}
    {p : List Char × (List Char × (List Char × (Char × List Char)))}
    (h : tailB l = some p) :
    LabeledOpt 'B' p.1 ∧ LabeledOpt 'C' p.2.1 ∧ LabeledOpt 'D' p.2.2.1 ∧
      ansLetter p.2.2.2.1 = true := by
  refine ⟨tailOpt_shape h, ?_⟩
  obtain ⟨v, hv⟩ := tailOpt_snd h
  exact tailC_shape hv

theorem tailA_shape {l : List Char}
    {p : List Char ×
        (List Char × (List Char × (List Char × (Char × List Char))))}
    (h : tailA l = some p) :
    LabeledOpt 'A' p.1 ∧ LabeledOpt 'B' p.2.1 ∧ LabeledOpt 'C' p.2.2.1 ∧
      LabeledOpt 'D' p.2.2.2.1 ∧ ansLetter p.2.2.2.2.1 = true := by
  refine ⟨tailOpt_shape h, ?_⟩
  obtain ⟨v, hv⟩ := tailOpt_snd h
  exact tailB_shape hv

/-- Well-formedness of the groups captured by a successful monolithic match. -/
def GroupsWF (g : Groups) : Prop :=
  LabeledOpt 'A' g.oA ∧ LabeledOpt 'B' g.oB ∧ LabeledOpt 'C' g.oC ∧
    LabeledOpt 'D' g.oD ∧ ansLetter g.ans = true

theorem Mono.matchAt_shape {hs : Char → Bool} {l : List Char} {g : Groups}
    {r : List Char} (h : Mono.matchAt hs l = some (g, r)) : GroupsWF g := by
  simp only [Mono.matchAt, Option.bind_eq_some] at h
  obtain ⟨l1, h1, h2⟩ := h
  split at h2
  · exact absurd h2 (by simp)
  · split at h2
    · split at h2
      · simp only [Option.map_eq_some'] at h2
        obtain ⟨⟨qtl, a⟩, hls, hout⟩ := h2
        obtain ⟨v, hv, hEq, hkv⟩ := lazySearch_some hls
        simp only [Option.bind_eq_some] at hkv
        obtain ⟨v1, hv1, htail⟩ := hkv
        have hsh := tailA_shape htail
        have hg : g = ⟨_ ++ _ :: _ :: qtl, a.1, a.2.1, a.2.2.1, a.2.2.2.1,
            a.2.2.2.2.1⟩ := (congrArg Prod.fst hout).symm
        rw [hg]
        exact ⟨hsh.1, hsh.2.1, hsh.2.2.1, hsh.2.2.2.1, hsh.2.2.2.2⟩
      · exact absurd h2 (by simp)
    · exact absurd h2 (by simp)

theorem Mono.scanF_shape (hs : Char → Bool) :
    ∀ f : Nat, ∀ l : List Char, ∀ g ∈ Mono.scanF hs f l, GroupsWF g := by
  intro f
  induction f with
  | zero => intro l g hg; simp [Mono.scanF] at hg
  | succ f ih =>
    intro l g hg
    cases hm : Mono.matchAt hs l with
    | some p =>
      obtain ⟨g0, rest⟩ := p
      simp only [Mono.scanF, hm, List.mem_cons] at hg
      rcases hg with hg | hg
      · exact hg ▸ Mono.matchAt_shape hm
      · exact ih rest g hg
    | none =>
      cases l with
      | nil => simp [Mono.scanF, hm] at hg
      | cons c t =>
        simp only [Mono.scanF, hm] at hg
        exact ih t g hg

/-! ### From captured groups to records -/

theorem ws_lowerc {c : Char} (h : isWs c = true) : lowerc c = c := by
  simp only [isWs, Bool.or_eq_true, decide_eq_true_eq] at h
  rcases h with ((((h | h) | h) | h) | h) | h <;> subst h <;> rfl

theorem not_ws_of_eqCI {c lab : Char} (hlab : isWs (lowerc lab) = false)
    (h : eqCI c lab = true) : isWs c = false := by
  by_contra hc
  have hc' : isWs c = true := by simpa using hc
  have h1 : lowerc c = c := ws_lowerc hc'
  have h2 : lowerc c = lowerc lab := by
    simpa [eqCI] using h
  rw [h1] at h2
  rw [h2] at hc'
  rw [hc'] at hlab
  exact absurd hlab (by simp)

theorem not_ws_of_ansLetter {c : Char} (h : ansLetter c = true) :
    isWs c = false := by
  simp only [ansLetter, Bool.or_eq_true, decide_eq_true_eq] at h
  rcases h with ((((((h | h) | h) | h) | h) | h) | h) | h <;> subst h <;> rfl

theorem trimWs_cons_cons {c1 c2 : Char} (h1 : isWs c1 = false)
    (h2 : isWs c2 = false) (t : List Char) :
    ∃ t', trimWs (c1 :: c2 :: t) = c1 :: c2 :: t' := by
  have hfront : (c1 :: c2 :: t).dropWhile isWs = c1 :: c2 :: t := by
    simp [List.dropWhile_cons, h1]
  have hrev : (c1 :: c2 :: t).reverse = t.reverse ++ [c2, c1] := by
    simp
  rw [trimWs, hfront, hrev, List.dropWhile_append]
  by_cases he : (t.reverse.dropWhile isWs).isEmpty
  · refine ⟨[], ?_⟩
    rw [if_pos he]
    simp [List.dropWhile_cons, h2]
  · refine ⟨(t.reverse.dropWhile isWs).reverse.drop 0, ?_⟩
    rw [if_neg he]
    simp

/-- The shape of an option line in a record's `options_text`: a label letter
(up to case) followed by a closing parenthesis. -/
def HeadLabel (lab : Char) (o : List Char) : Prop :=
  ∃ c t, o = c :: ')' :: t ∧ eqCI c lab = true

/-- A record's `options_text` is the newline-join of exactly four segments
labeled `A`, `B`, `C`, `D` in that order (labels up to letter case). -/
def FourOptionLines (s : String) : Prop :=
  ∃ a b c d : List Char,
    s = String.mk (a ++ '\n' :: (b ++ '\n' :: (c ++ '\n' :: d))) ∧
    HeadLabel 'A' a ∧ HeadLabel 'B' b ∧ HeadLabel 'C' c ∧ HeadLabel 'D' d

theorem trim_label {lab : Char} {o : List Char}
    (hlab : isWs (lowerc lab) = false) (h : LabeledOpt lab o) :
    HeadLabel lab (trimWs o) := by
  obtain ⟨c, t, rfl, hci, hne⟩ := h
  have hpar : isWs ')' = false := by decide
  obtain ⟨t', ht'⟩ := trimWs_cons_cons (not_ws_of_eqCI hlab hci) hpar t
  exact ⟨c, t', ht', hci⟩

theorem mkQuestion_shape {g : Groups} (h : GroupsWF g) :
    FourOptionLines (mkQuestion g).options_text ∧
      (mkQuestion g).correct_answer = String.mk [g.ans] ∧
        ansLetter g.ans = true := by
  obtain ⟨hA, hB, hC, hD, hans⟩ := h
  refine ⟨⟨trimWs g.oA, trimWs g.oB, trimWs g.oC, trimWs g.oD, rfl,
    trim_label (by decide) hA, trim_label (by decide) hB,
    trim_label (by decide) hC, trim_label (by decide) hD⟩, rfl, hans⟩

theorem app1_mem_shape {s : String} {r : Question}
    (hr : r ∈ App1.parse_questions s) :
    ∃ g : Groups, r = mkQuestion g ∧ GroupsWF g := by
  simp only [App1.parse_questions, List.mem_map] at hr
  obtain ⟨g, hg, rfl⟩ := hr
  exact ⟨g, rfl, Mono.scanF_shape isWs _ _ g hg⟩

theorem app2_mem_shape {s : String} {r : Question}
    (hr : r ∈ App2.generate_questions s) :
    ∃ g : Groups, r = mkQuestion g ∧ GroupsWF g := by
  simp only [App2.generate_questions, List.mem_map] at hr
  obtain ⟨g, hg, rfl⟩ := hr
  refine ⟨g, rfl, ?_⟩
  split at hg
  · exact Mono.scanF_shape isSp _ _ g hg
  · exact Mono.scanF_shape isSp _ _ g hg

/-! ### Inputs without stars produce nothing -/

theorem Mono.matchAt_nil (hs : Char → Bool) : Mono.matchAt hs [] = none := by
  simp [Mono.matchAt, ssLit, dropLit]

theorem Mono.matchAt_cons_ne (hs : Char → Bool) {c : Char} (h : c ≠ '*')
    (l : List Char) : Mono.matchAt hs (c :: l) = none := by
  simp [Mono.matchAt, ssLit, dropLit, h]

theorem Mono.scanF_no_star (hs : Char → Bool) :
    ∀ f : Nat, ∀ l : List Char, (∀ c ∈ l, c ≠ '*') →
      Mono.scanF hs f l = [] := by
  intro f
  induction f with
  | zero => intro l h; rfl
  | succ f ih =>
    intro l h
    cases l with
    | nil => simp [Mono.scanF, Mono.matchAt_nil]
    | cons c t =>
      have hm := Mono.matchAt_cons_ne hs (h c (by simp)) t
      simp only [Mono.scanF, hm]
      exact ih t fun d hd => h d (by simp [hd])

theorem App.matchHdr_nil : App.matchHdr [] = none := by
  simp [App.matchHdr, ssLit, dropLit]

theorem App.matchHdr_cons_ne {c : Char} (h : c ≠ '*') (l : List Char) :
    App.matchHdr (c :: l) = none := by
  simp [App.matchHdr, ssLit, dropLit, h]

theorem App.findHdr_no_star {l : List Char} (h : ∀ c ∈ l, c ≠ '*') :
    App.findHdr l = none := by
  refine lazySearch_none fun v hv => ?_
  cases v with
  | nil => exact App.matchHdr_nil
  | cons c t => exact App.matchHdr_cons_ne (h c (hv.subset (by simp))) t

theorem App.parse_qs_no_star {s : String} (h : ∀ c ∈ s.data, c ≠ '*') :
    App.parse_questions s = [] := by
  have hf : App.findHdr s.data = none := App.findHdr_no_star h
  have : App.splitPairs s.data = [] := by
    rw [App.splitPairs]
    cases hd : s.data with
    | nil => rfl
    | cons c t => simp [App.splitF, hd ▸ hf]
  simp [App.parse_questions, this]

theorem mem_removeTicks {c : Char} : ∀ {l : List Char},
    c ∈ removeTicks l → c ∈ l := by
  intro l
  induction l using removeTicks.induct with
  | case1 => simp [removeTicks]
  | case2 d => simp [removeTicks]
  | case3 d1 d2 => simp [removeTicks]
  | case4 d1 d2 d3 t ht ih =>
    intro hc
    rw [removeTicks, if_pos ht] at hc
    simp [ih hc]
  | case5 d1 d2 d3 t ht ih =>
    intro hc
    rw [removeTicks, if_neg ht] at hc
    rcases List.mem_cons.mp hc with hc | hc
    · simp [hc]
    · have := ih hc
      simp only [List.mem_cons] at this ⊢
      tauto

theorem mem_trimWs {c : Char} {l : List Char} (h : c ∈ trimWs l) : c ∈ l := by
  simp only [trimWs, List.mem_reverse] at h
  have h1 := (List.dropWhile_suffix isWs).subset h
  simp only [List.mem_reverse] at h1
  exact (List.dropWhile_suffix isWs).subset h1

theorem App1.parse_qs1_no_star {s : String} (h : ∀ c ∈ s.data, c ≠ '*') :
    App1.parse_questions s = [] := by
  simp [App1.parse_questions, Mono.scanQ, Mono.scanF_no_star isWs _ _ h]

theorem App2.parse_qs2_no_star {s : String} (h : ∀ c ∈ s.data, c ≠ '*') :
    App2.generate_questions s = [] := by
  have h1 : Mono.scanQ isSp s.data = [] :=
    Mono.scanF_no_star isSp _ _ h
  have h2 : Mono.scanQ isSp (trimWs (removeTicks s.data)) = [] := by
    refine Mono.scanF_no_star isSp _ _ fun c hc => ?_
    exact h c (mem_removeTicks (mem_trimWs hc))
  simp only [App2.generate_questions, h1]
  split
  · simp [h2]
  · simp

/-! ### Spec-side view of a record's options -/

/-- Spec-side decoding of `options_text` into the specification's
label-text pairs: one line per option, the label being the first character
and the text what follows the closing parenthesis and the space. -/
def optionPairs (r : Question) : List (String × String) :=
  (r.options_text.data.splitOn '\n').map fun line =>
    (String.mk (line.take 1), String.mk (line.drop 3))

/-- The amended well-formedness invariant satisfied by every record of the
monolithic extractors: four options labeled `A`-`D` in order up to letter
case, a one-letter answer in `A`-`D` up to case, and the answer letter agrees
with the label of one of the four options up to case. -/
def C3Shape (r : Question) : Prop :=
  ∃ a b c d : List Char, ∃ ansc : Char,
    r.options_text = String.mk (a ++ '\n' :: (b ++ '\n' :: (c ++ '\n' :: d))) ∧
    HeadLabel 'A' a ∧ HeadLabel 'B' b ∧ HeadLabel 'C' c ∧ HeadLabel 'D' d ∧
    r.correct_answer = String.mk [ansc] ∧ ansLetter ansc = true ∧
    (∃ o ∈ [a, b, c, d], ∃ ch t, o = ch :: ')' :: t ∧ eqCI ch ansc = true)

theorem headLabel_match {lab ansc : Char} {o : List Char} (h : HeadLabel lab o)
    (he : lowerc ansc = lowerc lab) :
    ∃ ch t, o = ch :: ')' :: t ∧ eqCI ch ansc = true := by
  obtain ⟨ch, t, rfl, hci⟩ := h
  refine ⟨ch, t, rfl, ?_⟩
  simp only [eqCI, decide_eq_true_eq] at hci ⊢
  rw [hci, he]

theorem mkQuestion_c3 {g : Groups} (h : GroupsWF g) : C3Shape (mkQuestion g) := by
  obtain ⟨hA, hB, hC, hD, hans⟩ := h
  have tA := trim_label (by decide) hA
  have tB := trim_label (by decide) hB
  have tC := trim_label (by decide) hC
  have tD := trim_label (by decide) hD
  refine ⟨trimWs g.oA, trimWs g.oB, trimWs g.oC, trimWs g.oD, g.ans, rfl,
    tA, tB, tC, tD, rfl, hans, ?_⟩
  have hdisj := hans
  simp only [ansLetter, Bool.or_eq_true, decide_eq_true_eq] at hdisj
  rcases hdisj with ((((((h1 | h1) | h1) | h1) | h1) | h1) | h1) | h1
  · exact ⟨trimWs g.oA, by simp, headLabel_match tA (by rw [h1])⟩
  · exact ⟨trimWs g.oB, by simp, headLabel_match tB (by rw [h1])⟩
  · exact ⟨trimWs g.oC, by simp, headLabel_match tC (by rw [h1])⟩
  · exact ⟨trimWs g.oD, by simp, headLabel_match tD (by rw [h1])⟩
  · exact ⟨trimWs g.oA, by simp, headLabel_match tA (by rw [h1]; rfl)⟩
  · exact ⟨trimWs g.oB, by simp, headLabel_match tB (by rw [h1]; rfl)⟩
  · exact ⟨trimWs g.oC, by simp, headLabel_match tC (by rw [h1]; rfl)⟩
  · exact ⟨trimWs g.oD, by simp, headLabel_match tD (by rw [h1]; rfl)⟩

/-! ### Concrete inputs used by the claims -/

/-- The well-formed single block of the specification's concrete scenario. -/
def sWellFormed : String :=
  "**1. What is 2+2?**\nA) 3\nB) 4\nC) 5\nD) 6\n**Correct Answer: B**"

/-- A single block whose option D is missing. -/
def sMissingD : String :=
  "**1. Q?**\nA) 1\nB) 2\nC) 3\n**Correct Answer: B**"

/-- The well-formed block with lowercase option labels and a lowercase
answer marker. -/
def sLower : String :=
  "**1. What is 2+2?**\na) 3\nb) 4\nc) 5\nd) 6\n**correct answer: b**"

/-- A block whose option A has only whitespace after its label. -/
def sEmptyOpt : String :=
  "**1. Q?**\nA) \nB) x\nC) y\nD) z\n**Correct Answer: A**"

/-- A well-formed block, then a block missing option D, then another
well-formed block. -/
def sMidMalformed : String :=
  "**1. P?**\nA) a\nB) b\nC) c\nD) d\n**Correct Answer: A**\n**2. Q?**\nA) e\nB) f\nC) g\n**Correct Answer: B**\n**3. R?**\nA) h\nB) i\nC) j\nD) k\n**Correct Answer: C**"

/-- A well-formed block followed by a block missing option D at the end of
the input. -/
def sLastMalformed : String :=
  "**1. P?**\nA) a\nB) b\nC) c\nD) d\n**Correct Answer: A**\n**2. Q?**\nA) e\nB) f\nC) g\n**Correct Answer: B**"

/-! ### Claims -/

/-- C1: on the single well-formed block input, each of the three extractor
variants yields exactly one record with question text `1. What is 2+2?`,
the four options `A) 3`, `B) 4`, `C) 5`, `D) 6` (decoded into the pairs
(A,3), (B,4), (C,5), (D,6)), and correct answer `B`. -/
theorem c1_single_block_all_variants :
    App.parse_questions sWellFormed =
      [⟨"1. What is 2+2?", "A) 3\nB) 4\nC) 5\nD) 6", "B"⟩] ∧
    App1.parse_questions sWellFormed =
      [⟨"1. What is 2+2?", "A) 3\nB) 4\nC) 5\nD) 6", "B"⟩] ∧
    App2.generate_questions sWellFormed =
      [⟨"1. What is 2+2?", "A) 3\nB) 4\nC) 5\nD) 6", "B"⟩] ∧
    optionPairs ⟨"1. What is 2+2?", "A) 3\nB) 4\nC) 5\nD) 6", "B"⟩ =
      [("A", "3"), ("B", "4"), ("C", "5"), ("D", "6")] :=
  ⟨by decide, by decide, by decide, by decide⟩

/-- C2 counterexample: on a block whose option D is missing, `app.py`'s
`parse_questions` does not yield zero records: it emits one record whose
`options_text` holds only the three options A, B, C. -/
theorem c2_counterexample_partial_record :
    App.parse_questions sMissingD = [⟨"1. Q?", "A) 1\nB) 2\nC) 3", "B"⟩] := by
  decide

/-- C2 amended: the monolithic extractors of `app1.py` and `app2.py` never
emit a partial record (every emitted record's `options_text` is the join of
exactly four segments labeled A, B, C, D, up to letter case) and drop a block
with a missing option; `app.py`, however, emits a record carrying only the
options present, as here with three options. -/
theorem c2_amended_no_partial :
    (∀ (s : String) (r : Question),
      r ∈ App1.parse_questions s → FourOptionLines r.options_text) ∧
    (∀ (s : String) (r : Question),
      r ∈ App2.generate_questions s → FourOptionLines r.options_text) ∧
    App1.parse_questions sMissingD = [] ∧
    App2.generate_questions sMissingD = [] ∧
    App.parse_questions sMissingD = [⟨"1. Q?", "A) 1\nB) 2\nC) 3", "B"⟩] := by
  refine ⟨?_, ?_, by decide, by decide, by decide⟩
  · intro s r hr
    obtain ⟨g, rfl, hwf⟩ := app1_mem_shape hr
    exact (mkQuestion_shape hwf).1
  · intro s r hr
    obtain ⟨g, rfl, hwf⟩ := app2_mem_shape hr
    exact (mkQuestion_shape hwf).1

/-- C2 witness: the record extracted from the well-formed block indeed has
four labeled option lines. -/
theorem c2_witness :
    FourOptionLines
      (Question.mk "1. What is 2+2?" "A) 3\nB) 4\nC) 5\nD) 6" "B").options_text :=
  c2_amended_no_partial.1 sWellFormed _ (by decide)

/-- C3 counterexample: emitted records can violate the claimed invariant in
three ways: `app.py` emits a record with only three options; `app1.py` keeps
lowercase labels and a lowercase answer (`b` is not one of A-D); and a
record's option text can be empty after stripping (`A)` with nothing after
it). -/
theorem c3_counterexample_invariant :
    App.parse_questions sMissingD = [⟨"1. Q?", "A) 1\nB) 2\nC) 3", "B"⟩] ∧
    App1.parse_questions sLower =
      [⟨"1. What is 2+2?", "a) 3\nb) 4\nc) 5\nd) 6", "b"⟩] ∧
    App1.parse_questions sEmptyOpt =
      [⟨"1. Q?", "A)\nB) x\nC) y\nD) z", "A"⟩] :=
  ⟨by decide, by decide, by decide⟩

/-- C3 amended: every record emitted by the monolithic extractors of
`app1.py` and `app2.py` has exactly four options labeled A, B, C, D in that
order up to letter case, and its correct answer is a single letter in A-D up
to case that agrees with the label of one of the four options up to case.
(Option texts may be empty after stripping, and `app.py` can emit records
with fewer than four options.) -/
theorem c3_amended_invariant :
    (∀ (s : String) (r : Question),
      r ∈ App1.parse_questions s → C3Shape r) ∧
    (∀ (s : String) (r : Question),
      r ∈ App2.generate_questions s → C3Shape r) := by
  constructor
  · intro s r hr
    obtain ⟨g, rfl, hwf⟩ := app1_mem_shape hr
    exact mkQuestion_c3 hwf
  · intro s r hr
    obtain ⟨g, rfl, hwf⟩ := app2_mem_shape hr
    exact mkQuestion_c3 hwf

/-- C3 witness: the invariant holds of the record extracted from the
well-formed block. -/
theorem c3_witness :
    C3Shape (Question.mk "1. What is 2+2?" "A) 3\nB) 4\nC) 5\nD) 6" "B") :=
  c3_amended_invariant.1 sWellFormed _ (by decide)

/-- C4 counterexample: with a well-formed block, then a block missing option
D, then another well-formed block, the monolithic extractor of `app1.py` does
not extract the final well-formed block as its own record: it emits a single
merged record whose option C swallows the rest of the malformed block and the
whole following block.  `app.py` does not drop the malformed block either: it
emits a three-option record for it. -/
theorem c4_counterexample_merge :
    (⟨"3. R?", "A) h\nB) i\nC) j\nD) k", "C"⟩ : Question) ∉
      App1.parse_questions sMidMalformed ∧
    App1.parse_questions sMidMalformed =
      [⟨"1. P?", "A) a\nB) b\nC) c\nD) d", "A"⟩,
       ⟨"2. Q?",
        "A) e\nB) f\nC) g\n**Correct Answer: B**\n**3. R?**\nA) h\nB) i\nC) j\nD) k",
        "C"⟩] ∧
    App.parse_questions sMidMalformed =
      [⟨"1. P?", "A) a\nB) b\nC) c\nD) d", "A"⟩,
       ⟨"2. Q?", "A) e\nB) f\nC) g", "B"⟩,
       ⟨"3. R?", "A) h\nB) i\nC) j\nD) k", "C"⟩] :=
  ⟨by decide, by decide, by decide⟩

/-- C4 amended: a malformed block is dropped by `app1.py`/`app2.py` with the
preceding well-formed blocks still extracted only when no well-formed block
follows it; when one follows, they emit a single merged record spanning both
blocks instead of extracting the following block separately; and `app.py`
emits a partial record for the malformed block itself rather than dropping
it. -/
theorem c4_amended_behavior :
    App1.parse_questions sLastMalformed =
      [⟨"1. P?", "A) a\nB) b\nC) c\nD) d", "A"⟩] ∧
    App2.generate_questions sLastMalformed =
      [⟨"1. P?", "A) a\nB) b\nC) c\nD) d", "A"⟩] ∧
    App2.generate_questions sMidMalformed =
      [⟨"1. P?", "A) a\nB) b\nC) c\nD) d", "A"⟩,
       ⟨"2. Q?",
        "A) e\nB) f\nC) g\n**Correct Answer: B**\n**3. R?**\nA) h\nB) i\nC) j\nD) k",
        "C"⟩] ∧
    App.parse_questions sLastMalformed =
      [⟨"1. P?", "A) a\nB) b\nC) c\nD) d", "A"⟩,
       ⟨"2. Q?", "A) e\nB) f\nC) g", "B"⟩] :=
  ⟨by decide, by decide, by decide, by decide⟩

/-- C5 counterexample: `app.py`'s `parse_questions` is case sensitive: the
all-lowercase variant of the well-formed block yields no record while the
uppercase one yields one; and even for `app1.py` the lowercase input does not
yield the same record as the uppercase input (the letter case of the input is
preserved in the record). -/
theorem c5_counterexample_case :
    App.parse_questions sLower = [] ∧
    App.parse_questions sWellFormed =
      [⟨"1. What is 2+2?", "A) 3\nB) 4\nC) 5\nD) 6", "B"⟩] ∧
    App1.parse_questions sLower ≠ App1.parse_questions sWellFormed :=
  ⟨by decide, by decide, by decide⟩

/-- C5 amended: `app1.py` and `app2.py` accept lowercase option labels and a
lowercase answer marker and still yield a record, but the record preserves
the input's letter case in `options_text` and `correct_answer`; `app.py`
matches case-sensitively and yields no record for the lowercase variant. -/
theorem c5_amended_case_behavior :
    App1.parse_questions sLower =
      [⟨"1. What is 2+2?", "a) 3\nb) 4\nc) 5\nd) 6", "b"⟩] ∧
    App2.generate_questions sLower =
      [⟨"1. What is 2+2?", "a) 3\nb) 4\nc) 5\nd) 6", "b"⟩] ∧
    App1.parse_questions sWellFormed =
      [⟨"1. What is 2+2?", "A) 3\nB) 4\nC) 5\nD) 6", "B"⟩] ∧
    App2.generate_questions sWellFormed =
      [⟨"1. What is 2+2?", "A) 3\nB) 4\nC) 5\nD) 6", "B"⟩] ∧
    App.parse_questions sLower = [] :=
  ⟨by decide, by decide, by decide, by decide, by decide⟩

/-- C6: all three extractors are total functions of their input in this
embedding (so extraction always terminates and never raises); the empty
string yields the empty sequence, and any input with no `*` character (hence
no recognizable block marker at all) yields the empty sequence. -/
theorem c6_total_empty_and_no_blocks :
    App.parse_questions "" = [] ∧ App1.parse_questions "" = [] ∧
    App2.generate_questions "" = [] ∧
    ∀ s : String, (∀ c ∈ s.data, c ≠ '*') →
      App.parse_questions s = [] ∧ App1.parse_questions s = [] ∧
        App2.generate_questions s = [] :=
  ⟨by decide, by decide, by decide, fun s h =>
    ⟨App.parse_qs_no_star h, App1.parse_qs1_no_star h, App2.parse_qs2_no_star h⟩⟩

/-- C6 witness: a concrete starless input yields the empty sequence in all
three extractors. -/
theorem c6_witness :
    App.parse_questions "no questions in this text" = [] ∧
    App1.parse_questions "no questions in this text" = [] ∧
    App2.generate_questions "no questions in this text" = [] :=
  c6_total_empty_and_no_blocks.2.2.2 "no questions in this text" (by decide)

/-- C9: extraction is a deterministic pure function of the input string in
all three variants: equal inputs produce equal record sequences (the
embedding is a mathematical function of the string argument alone, mirroring
that the Python code reads nothing but its argument). -/
theorem c9_deterministic_pure :
    ∀ s1 s2 : String, s1 = s2 →
      App.parse_questions s1 = App.parse_questions s2 ∧
      App1.parse_questions s1 = App1.parse_questions s2 ∧
      App2.generate_questions s1 = App2.generate_questions s2 := by
  intro s1 s2 h
  subst h
  exact ⟨rfl, rfl, rfl⟩

/-- C9 witness: two runs on the concrete well-formed input agree. -/
theorem c9_witness :
    App.parse_questions sWellFormed = App.parse_questions sWellFormed ∧
    App1.parse_questions sWellFormed = App1.parse_questions sWellFormed ∧
    App2.generate_questions sWellFormed = App2.generate_questions sWellFormed :=
  c9_deterministic_pure sWellFormed sWellFormed rfl

/-! ### Rendering of inputs that follow the expected textual convention -/

/-- The data of one question block following the expected convention:
number, question text, the four option texts, the answer letter, whether the
closing `**` after the answer is present, and the whitespace separating this
block from what follows. -/
structure Blk where
  num : List Char
  qt : List Char
  t1 : List Char
  t2 : List Char
  t3 : List Char
  t4 : List Char
  ansL : Char
  closer : Bool
  sep : List Char

/-- A benign option text: nonempty, without `*` (which could fake a bold
marker) and `)` (which could fake an option label), and not ending in
whitespace (spaces inside are fine). -/
def SafeTxt (t : List Char) : Prop :=
  t ≠ [] ∧ (∀ c ∈ t, c ≠ '*' ∧ c ≠ ')') ∧
    (∀ c, t.getLast? = some c → isWs c = false)

instance : DecidablePred SafeTxt := fun t => by
  unfold SafeTxt
  infer_instance

/-- A block following the expected convention, with benign texts. -/
def SafeBlk (b : Blk) : Prop :=
  b.num ≠ [] ∧ (∀ c ∈ b.num, isDigitC c = true) ∧
  (∀ c ∈ b.qt, c ≠ '*') ∧
  SafeTxt b.t1 ∧ SafeTxt b.t2 ∧ SafeTxt b.t3 ∧ SafeTxt b.t4 ∧
  (b.ansL = 'A' ∨ b.ansL = 'B' ∨ b.ansL = 'C' ∨ b.ansL = 'D') ∧
  (∀ c ∈ b.sep, isWs c = true)

instance : DecidablePred SafeBlk := fun b => by
  unfold SafeBlk
  infer_instance

/-- One option line: label, closing parenthesis, one space, the text. -/
def optLine (lab : Char) (t : List Char) : List Char :=
  lab :: ')' :: ' ' :: t

/-- The header capture of a block: number, dot, space, question text. -/
def capB (b : Blk) : List Char :=
  b.num ++ ('.' :: ' ' :: b.qt)

/-- The closing stars after the answer letter, when present. -/
def closerPart (b : Blk) : List Char :=
  if b.closer then ssLit else []

/-- The rendered answer marker: `**Correct Answer: X` plus the closer. -/
def markerB (b : Blk) : List Char :=
  App.caLitCS ++ (' ' :: b.ansL :: closerPart b)

/-- The four rendered option lines of a block, newline-separated. -/
def optsB (b : Blk) : List Char :=
  optLine 'A' b.t1 ++ ('\n' :: (optLine 'B' b.t2 ++
    ('\n' :: (optLine 'C' b.t3 ++ ('\n' :: optLine 'D' b.t4)))))

/-- The rendered block body after the header: the option lines and
the marker. -/
def bodyB (b : Blk) : List Char :=
  '\n' :: (optsB b ++ ('\n' :: markerB b))

/-- The rendered bold header of a block: `**N. question**`. -/
def hdrB (b : Blk) : List Char :=
  ssLit ++ (b.num ++ ('.' :: ' ' :: (b.qt ++ ssLit)))

/-- One rendered block. -/
def renderB (b : Blk) : List Char :=
  hdrB b ++ bodyB b

/-- The rendered input: the blocks, each followed by its separator. -/
def renderAll : List Blk → List Char
  | [] => []
  | b :: bs => renderB b ++ (b.sep ++ renderAll bs)

/-- The groups the monolithic pattern is expected to capture on a rendered
block. -/
def intendedG (b : Blk) : Groups :=
  ⟨capB b, optLine 'A' b.t1, optLine 'B' b.t2, optLine 'C' b.t3,
   optLine 'D' b.t4, b.ansL⟩

/-! ### Exact-stop lemmas for the lazy searches -/

theorem lazy_stop_raw {α : Type} (κ : List Char → Option α)
    (region r : List Char) (a : α)
    (hmid : ∀ mid, mid <:+ region → mid ≠ [] → κ (mid ++ r) = none)
    (hhit : κ r = some a) :
    lazySearch κ (region ++ r) = some (region, a) := by
  induction region with
  | nil =>
    cases r with
    | nil => simp [lazySearch, hhit]
    | cons c t => simp [lazySearch, hhit]
  | cons c reg ih =>
    have hfail : κ (c :: (reg ++ r)) = none := by
      have := hmid (c :: reg) (List.suffix_refl _) (by simp)
      simpa using this
    have ih' := ih fun mid hm hne =>
      hmid mid (hm.trans (List.suffix_cons c reg)) hne
    simp only [List.cons_append, lazySearch, List.append_eq, hfail, ih']
    rfl

theorem getLast?_suffix {l t : List Char} (h : l <:+ t) (hne : l ≠ []) :
    t.getLast? = l.getLast? := by
  obtain ⟨p, rfl⟩ := h
  cases l with
  | nil => exact absurd rfl hne
  | cons c u => rw [List.getLast?_append_cons]

theorem skipWs_region {t : List Char}
    (hlast : ∀ c, t.getLast? = some c → isWs c = false) :
    ∀ t', t' <:+ t → t' ≠ [] → ∀ r : List Char,
      ∃ c u, skipWs (t' ++ r) = c :: (u ++ r) ∧ (c :: u) <:+ t ∧
        isWs c = false := by
  intro t'
  induction t' with
  | nil => intro _ hne; exact absurd rfl hne
  | cons c u ih =>
    intro hsuff _ r
    by_cases hc : isWs c
    · have hune : u ≠ [] := by
        rintro rfl
        have := getLast?_suffix hsuff (by simp)
        simp only [List.getLast?_singleton] at this
        exact absurd (hlast c this) (by simp [hc])
      have hu : u <:+ t := (List.suffix_cons c u).trans hsuff
      obtain ⟨c', u', heq, hs, hw⟩ := ih hu hune r
      refine ⟨c', u', ?_, hs, hw⟩
      rw [List.cons_append, skipWs, List.dropWhile_cons, if_pos hc]
      exact heq
    · exact ⟨c, u, by rw [List.cons_append,
        skipWs_cons_not (by simpa using hc)], hsuff, by simpa using hc⟩

theorem lowerc_eq_star {c : Char} (h : lowerc c = '*') : c = '*' := by
  unfold lowerc at h
  split at h <;> first | assumption | exact absurd h (by decide)

theorem tailAns_cons_ne {c : Char} (h : c ≠ '*') (l : List Char) :
    tailAns (c :: l) = none := by
  have hci : eqCI c '*' = false := by
    simp only [eqCI, decide_eq_false_iff_not]
    intro he
    exact h (lowerc_eq_star (by simpa using he))
  simp [tailAns, caLit, dropLitCI, hci]

theorem App.ansCS_cons_ne {c : Char} (h : c ≠ '*') (l : List Char) :
    App.ansCS (c :: l) = none := by
  simp [App.ansCS, App.caLitCS, dropLit, h]

theorem tailOpt_ne_par {α : Type} (lab : Char) (κ : List Char → Option α)
    {c d : Char} (h : d ≠ ')') (rest : List Char) :
    tailOpt lab κ (c :: d :: rest) = none := by
  simp [tailOpt, h]

/-! ### The monolithic pattern on a rendered block -/

theorem dropLitCI_ca (z : List Char) :
    dropLitCI caLit (App.caLitCS ++ z) = some z := rfl

theorem dropLit_ss (z : List Char) : dropLit ssLit ('*' :: '*' :: z) = some z :=
  rfl

theorem dropLit_ss_cons_ne {c : Char} (h : c ≠ '*') (l : List Char) :
    dropLit ssLit (c :: l) = none := by
  simp [ssLit, dropLit, h]

theorem skipWs_marker (z : List Char) :
    skipWs (App.caLitCS ++ z) = App.caLitCS ++ z :=
  skipWs_cons_not (by decide) _

theorem ansLetter_of_safe {b : Blk} (hb : SafeBlk b) :
    ansLetter b.ansL = true := by
  rcases hb.2.2.2.2.2.2.2.1 with h | h | h | h <;> simp [ansLetter, h]

theorem tailAns_render (b : Blk) (hans : ansLetter b.ansL = true)
    (r : List Char) :
    tailAns (markerB b ++ r) =
      some (b.ansL, if b.closer then '*' :: '*' :: r else skipWs r) := by
  have h1 : markerB b ++ r =
      App.caLitCS ++ (' ' :: b.ansL :: (closerPart b ++ r)) := by
    simp [markerB, List.append_assoc]
  rw [h1]
  simp only [tailAns, dropLitCI_ca, Option.some_bind]
  have h2 : skipWs (' ' :: b.ansL :: (closerPart b ++ r)) =
      b.ansL :: (closerPart b ++ r) := by
    rw [skipWs, List.dropWhile_cons, if_pos (by decide)]
    exact skipWs_cons_not (not_ws_of_ansLetter hans) _
  rw [h2]
  simp only [hans, if_true]
  have h3 : skipWs (closerPart b ++ r) =
      if b.closer then '*' :: '*' :: r else skipWs r := by
    cases hc : b.closer
    · simp [closerPart, hc]
    · have he : closerPart b ++ r = '*' :: '*' :: r := by
        simp [closerPart, hc, ssLit]
      rw [he, if_pos rfl]
      exact skipWs_cons_not (by decide) _
  rw [h3]

theorem tailOpt_render {α : Type} (lab : Char) (κ : List Char → Option α)
    (t rest : List Char) (a : α)
    (hlast : ∀ c, t.getLast? = some c → isWs c = false)
    (hmid : ∀ c u, (c :: u) <:+ t → isWs c = false →
      κ (c :: (u ++ ('\n' :: rest))) = none)
    (hhit : κ (skipWs ('\n' :: rest)) = some a) :
    tailOpt lab κ (optLine lab t ++ ('\n' :: rest)) =
      some (optLine lab t, a) := by
  have hshape : optLine lab t ++ ('\n' :: rest) =
      lab :: ')' :: (' ' :: (t ++ ('\n' :: rest))) := by
    simp [optLine]
  rw [hshape]
  simp only [tailOpt]
  rw [if_pos (by simp [eqCI])]
  have hls : lazySearch (fun v => κ (skipWs v)) (t ++ ('\n' :: rest)) =
      some (t, a) := by
    refine lazy_stop_raw _ t ('\n' :: rest) a ?_ ?_
    · intro mid hm hne
      obtain ⟨c, u, heq, hsuf, hw⟩ :=
        skipWs_region hlast mid hm hne ('\n' :: rest)
      show κ (skipWs (mid ++ ('\n' :: rest))) = none
      rw [heq]
      exact hmid c u hsuf hw
    · exact hhit
  simp only [lazySearch1, hls]
  rfl

theorem tailD_render (b : Blk) (hb : SafeBlk b) (r : List Char) :
    tailD (optLine 'D' b.t4 ++ ('\n' :: (markerB b ++ r))) =
      some (optLine 'D' b.t4,
        (b.ansL, if b.closer then '*' :: '*' :: r else skipWs r)) := by
  have h4 := hb.2.2.2.2.2.2.1
  refine tailOpt_render 'D' tailAns b.t4 (markerB b ++ r) _ h4.2.2 ?_ ?_
  · intro c u hsuf _
    exact tailAns_cons_ne (h4.2.1 c (hsuf.subset (by simp))).1 _
  · have hsk : skipWs ('\n' :: (markerB b ++ r)) = markerB b ++ r := by
      rw [skipWs, List.dropWhile_cons, if_pos (by decide)]
      rw [show markerB b ++ r =
        App.caLitCS ++ ((' ' :: b.ansL :: closerPart b) ++ r) from by
          simp [markerB]]
      exact skipWs_marker _
    rw [hsk]
    exact tailAns_render b (ansLetter_of_safe hb) r

theorem tailC_render (b : Blk) (hb : SafeBlk b) (r : List Char) :
    tailC (optLine 'C' b.t3 ++
        ('\n' :: (optLine 'D' b.t4 ++ ('\n' :: (markerB b ++ r))))) =
      some (optLine 'C' b.t3, (optLine 'D' b.t4,
        (b.ansL, if b.closer then '*' :: '*' :: r else skipWs r))) := by
  have h3 := hb.2.2.2.2.2.1
  refine tailOpt_render 'C' tailD b.t3 _ _ h3.2.2 ?_ ?_
  · intro c u hsuf _
    cases u with
    | nil => exact tailOpt_ne_par 'D' tailAns (by decide) _
    | cons e u' =>
      exact tailOpt_ne_par 'D' tailAns
        ((h3.2.1 e (hsuf.subset (by simp))).2) _
  · have hsk : skipWs ('\n' :: (optLine 'D' b.t4 ++ ('\n' :: (markerB b ++ r)))) =
        optLine 'D' b.t4 ++ ('\n' :: (markerB b ++ r)) := by
      rw [skipWs, List.dropWhile_cons, if_pos (by decide)]
      show skipWs ('D' :: (')' :: ' ' :: b.t4 ++ ('\n' :: (markerB b ++ r)))) = _
      rw [skipWs_cons_not (by decide)]
      simp [optLine]
    rw [hsk]
    exact tailD_render b hb r

theorem tailB_render (b : Blk) (hb : SafeBlk b) (r : List Char) :
    tailB (optLine 'B' b.t2 ++
        ('\n' :: (optLine 'C' b.t3 ++
          ('\n' :: (optLine 'D' b.t4 ++ ('\n' :: (markerB b ++ r))))))) =
      some (optLine 'B' b.t2, (optLine 'C' b.t3, (optLine 'D' b.t4,
        (b.ansL, if b.closer then '*' :: '*' :: r else skipWs r)))) := by
  have h2 := hb.2.2.2.2.1
  refine tailOpt_render 'B' tailC b.t2 _ _ h2.2.2 ?_ ?_
  · intro c u hsuf _
    cases u with
    | nil => exact tailOpt_ne_par 'C' tailD (by decide) _
    | cons e u' =>
      exact tailOpt_ne_par 'C' tailD
        ((h2.2.1 e (hsuf.subset (by simp))).2) _
  · have hsk : skipWs ('\n' :: (optLine 'C' b.t3 ++
        ('\n' :: (optLine 'D' b.t4 ++ ('\n' :: (markerB b ++ r)))))) =
        optLine 'C' b.t3 ++
          ('\n' :: (optLine 'D' b.t4 ++ ('\n' :: (markerB b ++ r)))) := by
      rw [skipWs, List.dropWhile_cons, if_pos (by decide)]
      show skipWs ('C' :: (')' :: ' ' :: b.t3 ++ _)) = _
      rw [skipWs_cons_not (by decide)]
      simp [optLine]
    rw [hsk]
    exact tailC_render b hb r

theorem tailA_render (b : Blk) (hb : SafeBlk b) (r : List Char) :
    tailA (optsB b ++ ('\n' :: (markerB b ++ r))) =
      some (optLine 'A' b.t1, (optLine 'B' b.t2, (optLine 'C' b.t3,
        (optLine 'D' b.t4,
          (b.ansL, if b.closer then '*' :: '*' :: r else skipWs r))))) := by
  have h1 := hb.2.2.2.1
  have hshape : optsB b ++ ('\n' :: (markerB b ++ r)) =
      optLine 'A' b.t1 ++ ('\n' :: (optLine 'B' b.t2 ++
        ('\n' :: (optLine 'C' b.t3 ++
          ('\n' :: (optLine 'D' b.t4 ++ ('\n' :: (markerB b ++ r)))))))) := by
    simp [optsB, List.append_assoc]
  rw [hshape]
  refine tailOpt_render 'A' tailB b.t1 _ _ h1.2.2 ?_ ?_
  · intro c u hsuf _
    cases u with
    | nil => exact tailOpt_ne_par 'B' tailC (by decide) _
    | cons e u' =>
      exact tailOpt_ne_par 'B' tailC
        ((h1.2.1 e (hsuf.subset (by simp))).2) _
  · have hsk : skipWs ('\n' :: (optLine 'B' b.t2 ++
        ('\n' :: (optLine 'C' b.t3 ++
          ('\n' :: (optLine 'D' b.t4 ++ ('\n' :: (markerB b ++ r)))))))) =
        optLine 'B' b.t2 ++
          ('\n' :: (optLine 'C' b.t3 ++
            ('\n' :: (optLine 'D' b.t4 ++ ('\n' :: (markerB b ++ r)))))) := by
      rw [skipWs, List.dropWhile_cons, if_pos (by decide)]
      show skipWs ('B' :: (')' :: ' ' :: b.t2 ++ _)) = _
      rw [skipWs_cons_not (by decide)]
      simp [optLine]
    rw [hsk]
    exact tailB_render b hb r

theorem ws_not_star {c : Char} (h : isWs c = true) : c ≠ '*' := by
  simp only [isWs, Bool.or_eq_true, decide_eq_true_eq] at h
  rcases h with ((((h | h) | h) | h) | h) | h <;> subst h <;> decide

theorem ws_not_digit {c : Char} (h : isWs c = true) : isDigitC c = false := by
  simp only [isWs, Bool.or_eq_true, decide_eq_true_eq] at h
  rcases h with ((((h | h) | h) | h) | h) | h <;> subst h <;> decide

theorem Mono.matchAt_renderB (hs : Char → Bool) (hsp : hs ' ' = true)
    (b : Blk) (hb : SafeBlk b) (r : List Char) :
    Mono.matchAt hs (renderB b ++ r) =
      some (intendedG b, if b.closer then '*' :: '*' :: r else skipWs r) := by
  have hshape : renderB b ++ r =
      '*' :: '*' :: (b.num ++ ('.' :: ' ' :: (b.qt ++
        ('*' :: '*' :: (bodyB b ++ r))))) := by
    simp [renderB, hdrB, ssLit, List.append_assoc]
  rw [hshape]
  obtain ⟨htake, hdrop⟩ :=
    takeWhile_digits hb.2.1 (show isDigitC '.' = false by decide)
      (' ' :: (b.qt ++ ('*' :: '*' :: (bodyB b ++ r))))
  have hls : lazySearch
      (fun v => (dropLit ssLit v).bind fun v1 => tailA (skipWs v1))
      (b.qt ++ ('*' :: '*' :: (bodyB b ++ r))) =
      some (b.qt, (optLine 'A' b.t1, (optLine 'B' b.t2, (optLine 'C' b.t3,
        (optLine 'D' b.t4,
          (b.ansL, if b.closer then '*' :: '*' :: r else skipWs r)))))) := by
    refine lazy_stop_raw _ b.qt ('*' :: '*' :: (bodyB b ++ r)) _ ?_ ?_
    · intro mid hm hne
      cases mid with
      | nil => exact absurd rfl hne
      | cons c u =>
        have hc : c ≠ '*' := hb.2.2.1 c (hm.subset (by simp))
        show (dropLit ssLit (c :: (u ++ _))).bind _ = none
        rw [dropLit_ss_cons_ne hc]
        rfl
    · show (dropLit ssLit ('*' :: '*' :: (bodyB b ++ r))).bind
        (fun v1 => tailA (skipWs v1)) = _
      rw [dropLit_ss, Option.some_bind]
      have hsk : skipWs (bodyB b ++ r) =
          optsB b ++ ('\n' :: (markerB b ++ r)) := by
        have hb2 : bodyB b ++ r =
            '\n' :: (optsB b ++ ('\n' :: (markerB b ++ r))) := by
          simp [bodyB, List.append_assoc]
        rw [hb2, skipWs, List.dropWhile_cons, if_pos (by decide)]
        have hA : optsB b ++ ('\n' :: (markerB b ++ r)) =
            'A' :: (')' :: ' ' :: (b.t1 ++ ('\n' :: (optLine 'B' b.t2 ++
              ('\n' :: (optLine 'C' b.t3 ++
                ('\n' :: (optLine 'D' b.t4 ++
                  ('\n' :: (markerB b ++ r)))))))))) := by
          simp [optsB, optLine, List.append_assoc]
        rw [hA]
        rw [List.dropWhile_cons, if_neg (by decide)]
      rw [hsk]
      exact tailA_render b hb r
  simp only [Mono.matchAt, dropLit_ss, Option.some_bind, htake, hdrop,
    if_neg hb.1, hsp, decide_True, Bool.true_and, Bool.and_self, if_true]
  rw [hls]
  simp [intendedG, capB]

/-- The shape of the text following a block match: either nothing, another
rendered block (starting with two stars), or tail junk that can start
no match. -/
def GapNext (R : List Char) : Prop :=
  R = [] ∨ (∃ z, R = '*' :: '*' :: z) ∨
    (∀ c, R.head? = some c → c ≠ '*' ∧ isDigitC c = false)

theorem Mono.matchAt_ss_nodigit (hs : Char → Bool) {l : List Char}
    (h : ∀ d, l.head? = some d → isDigitC d = false) :
    Mono.matchAt hs ('*' :: '*' :: l) = none := by
  simp only [Mono.matchAt, dropLit_ss, Option.some_bind]
  have htw : l.takeWhile isDigitC = [] := by
    cases l with
    | nil => rfl
    | cons d t => simp [List.takeWhile_cons, h d rfl]
  rw [if_pos htw]

theorem Mono.matchAt_star_ne (hs : Char → Bool) {l : List Char}
    (h : ∀ d, l.head? = some d → d ≠ '*') :
    Mono.matchAt hs ('*' :: l) = none := by
  cases l with
  | nil => simp [Mono.matchAt, ssLit, dropLit]
  | cons d t =>
    simp [Mono.matchAt, ssLit, dropLit, h d rfl]

theorem suffix_append_cases {j a b : List Char} (h : j <:+ a ++ b) :
    j <:+ b ∨ ∃ j', j' <:+ a ∧ j' ≠ [] ∧ j = j' ++ b := by
  induction a generalizing j with
  | nil => exact Or.inl (by simpa using h)
  | cons c a' ih =>
    rw [List.cons_append] at h
    rcases List.suffix_cons_iff.mp h with h | h
    · exact Or.inr ⟨c :: a', List.suffix_refl _, by simp, by simp [h]⟩
    · rcases ih h with h2 | ⟨j', hj1, hj2, hj3⟩
      · exact Or.inl h2
      · exact Or.inr ⟨j', hj1.trans (List.suffix_cons c a'), hj2, hj3⟩

theorem Mono.matchAt_gap (hs : Char → Bool) {sep R : List Char}
    (hsep : ∀ c ∈ sep, isWs c = true) (hR : GapNext R) :
    ∀ j, j <:+ ('*' :: '*' :: sep) → j ≠ [] →
      Mono.matchAt hs (j ++ R) = none := by
  have hhead : ∀ d, (sep ++ R).head? = some d → isDigitC d = false := by
    intro d hd
    cases sep with
    | cons c t =>
      simp only [List.cons_append, List.head?_cons, Option.some.injEq] at hd
      exact hd ▸ ws_not_digit (hsep c (by simp))
    | nil =>
      simp only [List.nil_append] at hd
      rcases hR with rfl | ⟨z, rfl⟩ | h3
      · simp at hd
      · simp only [List.head?_cons, Option.some.injEq] at hd
        subst hd
        decide
      · exact (h3 d hd).2
  intro j hj hne
  rcases List.suffix_cons_iff.mp hj with rfl | hj2
  · have heq : ('*' :: '*' :: sep) ++ R = '*' :: '*' :: (sep ++ R) := by simp
    rw [heq]
    exact Mono.matchAt_ss_nodigit hs hhead
  · rcases List.suffix_cons_iff.mp hj2 with rfl | hj3
    · cases sep with
      | cons c t =>
        rw [List.cons_append]
        refine Mono.matchAt_star_ne hs ?_
        intro d hd
        rw [List.cons_append, List.head?_cons] at hd
        have hdc : d = c := by simpa using hd.symm
        subst hdc
        exact ws_not_star (hsep d (by simp))
      | nil =>
        rcases hR with rfl | ⟨z, rfl⟩ | h3
        · simp [Mono.matchAt, ssLit, dropLit]
        · have heq : ('*' :: ([] : List Char)) ++ ('*' :: '*' :: z) =
              '*' :: '*' :: ('*' :: z) := by simp
          rw [heq]
          refine Mono.matchAt_ss_nodigit hs ?_
          intro d hd
          have hdc : d = '*' := by simpa using hd.symm
          subst hdc
          decide
        · have heq : ('*' :: ([] : List Char)) ++ R = '*' :: R := by simp
          rw [heq]
          exact Mono.matchAt_star_ne hs fun d hd => (h3 d hd).1
    · cases j with
      | nil => exact absurd rfl hne
      | cons c t =>
        rw [List.cons_append]
        exact Mono.matchAt_cons_ne hs
          (ws_not_star (hsep c (hj3.subset (by simp)))) _

theorem Mono.scanF_skip (hs : Char → Bool) :
    ∀ junk next : List Char, ∀ f : Nat,
      (∀ j, j <:+ junk → j ≠ [] → Mono.matchAt hs (j ++ next) = none) →
      (junk ++ next).length < f →
      Mono.scanF hs f (junk ++ next) = Mono.scanQ hs next := by
  intro junk
  induction junk with
  | nil =>
    intro next f _ hf
    simp only [List.nil_append] at hf ⊢
    exact (Mono.scanQ_eq hs hf).symm
  | cons c j ih =>
    intro next f h hf
    cases f with
    | zero => exact absurd hf (by omega)
    | succ f' =>
      have hm : Mono.matchAt hs (c :: (j ++ next)) = none := by
        have := h (c :: j) (List.suffix_refl _) (by simp)
        simpa using this
      have hlen : (j ++ next).length < f' := by
        simp only [List.cons_append, List.length_cons] at hf
        omega
      have hrest := ih next f'
        (fun j' hj' hne => h j' (hj'.trans (List.suffix_cons c j)) hne) hlen
      simp only [List.cons_append, Mono.scanF, hm]
      exact hrest

theorem renderB_shape (b : Blk) (w : List Char) :
    renderB b ++ w =
      '*' :: '*' :: ((b.num ++ ('.' :: ' ' :: (b.qt ++ ssLit))) ++
        (bodyB b ++ w)) := by
  simp [renderB, hdrB, ssLit, List.append_assoc]

theorem renderB_len (b : Blk) : 2 < (renderB b).length := by
  simp [renderB, hdrB, bodyB, ssLit, List.length_append]

theorem tick_not_star : tick ≠ '*' := by decide

theorem gapNext_R {bs : List Blk} {tailJ : List Char}
    (hj : ∀ c ∈ tailJ, isWs c = true ∨ c = tick) :
    GapNext (renderAll bs ++ tailJ) := by
  cases bs with
  | nil =>
    right; right
    intro c hc
    simp only [renderAll, List.nil_append] at hc
    have hm : c ∈ tailJ := by
      cases tailJ with
      | nil => simp at hc
      | cons d t =>
        simp only [List.head?_cons, Option.some.injEq] at hc
        simp [← hc]
    rcases hj c hm with h | h
    · exact ⟨ws_not_star h, ws_not_digit h⟩
    · subst h
      exact ⟨tick_not_star, by decide⟩
  | cons b2 bs' =>
    right; left
    refine ⟨(b2.num ++ ('.' :: ' ' :: (b2.qt ++ ssLit))) ++
      (bodyB b2 ++ ((b2.sep ++ renderAll bs') ++ tailJ)), ?_⟩
    have h1 : renderAll (b2 :: bs') ++ tailJ =
        renderB b2 ++ ((b2.sep ++ renderAll bs') ++ tailJ) := by
      simp [renderAll, List.append_assoc]
    rw [h1, renderB_shape]

theorem tailJ_no_star {tailJ : List Char}
    (hj : ∀ c ∈ tailJ, isWs c = true ∨ c = tick) :
    ∀ c ∈ tailJ, c ≠ '*' := by
  intro c hc
  rcases hj c hc with h | h
  · exact ws_not_star h
  · subst h; exact tick_not_star

theorem Mono.scanQ_step {hs : Char → Bool} {l : List Char} {g : Groups}
    {rest : List Char} (hm : Mono.matchAt hs l = some (g, rest)) :
    Mono.scanQ hs l = g :: Mono.scanQ hs rest := by
  have hlt := Mono.matchAt_lt hm
  rw [Mono.scanQ]
  simp only [Mono.scanF, hm]
  rw [← Mono.scanQ_eq hs (show rest.length < l.length from hlt)]

theorem Mono.scanQ_skip (hs : Char → Bool) (junk next : List Char)
    (hfail : ∀ j, j <:+ junk → j ≠ [] → Mono.matchAt hs (j ++ next) = none) :
    Mono.scanQ hs (junk ++ next) = Mono.scanQ hs next := by
  rw [Mono.scanQ]
  exact Mono.scanF_skip hs junk next _ hfail (by omega)

theorem Mono.scanQ_no_star (hs : Char → Bool) {l : List Char}
    (h : ∀ c ∈ l, c ≠ '*') : Mono.scanQ hs l = [] :=
  Mono.scanF_no_star hs _ _ h

theorem Mono.scanQ_renderAll (hs : Char → Bool) (hsp : hs ' ' = true) :
    ∀ bs : List Blk, ∀ tailJ : List Char,
      (∀ b ∈ bs, SafeBlk b) → (∀ c ∈ tailJ, isWs c = true ∨ c = tick) →
      Mono.scanQ hs (renderAll bs ++ tailJ) = bs.map intendedG := by
  intro bs
  induction bs with
  | nil =>
    intro tailJ _ hj
    simp only [renderAll, List.nil_append, List.map_nil]
    exact Mono.scanF_no_star hs _ _ (tailJ_no_star hj)
  | cons b bs' ih =>
    intro tailJ hsafe hj
    have hb := hsafe b (by simp)
    have hsep := hb.2.2.2.2.2.2.2.2
    have hshape2 : renderAll (b :: bs') ++ tailJ =
        renderB b ++ (b.sep ++ (renderAll bs' ++ tailJ)) := by
      simp [renderAll, List.append_assoc]
    have hGap : GapNext (renderAll bs' ++ tailJ) := gapNext_R hj
    have hm := Mono.matchAt_renderB hs hsp b hb
      (b.sep ++ (renderAll bs' ++ tailJ))
    have hih := ih tailJ (fun b' hb' => hsafe b' (by simp [hb'])) hj
    rw [hshape2]
    cases hc : b.closer with
    | true =>
      rw [hc, if_pos rfl] at hm
      rw [Mono.scanQ_step hm, List.map_cons]
      congr 1
      have hrw : ('*' :: '*' :: (b.sep ++ (renderAll bs' ++ tailJ))) =
          ('*' :: '*' :: b.sep) ++ (renderAll bs' ++ tailJ) := by simp
      rw [hrw, Mono.scanQ_skip hs ('*' :: '*' :: b.sep)
        (renderAll bs' ++ tailJ) (Mono.matchAt_gap hs hsep hGap)]
      exact hih
    | false =>
      rw [hc, if_neg (by decide)] at hm
      have hsk : skipWs (b.sep ++ (renderAll bs' ++ tailJ)) =
          skipWs (renderAll bs' ++ tailJ) := skipWs_append_ws hsep _
      rw [hsk] at hm
      cases hbs : bs' with
      | nil =>
        subst hbs
        simp only [renderAll, List.nil_append] at hm ⊢
        rw [Mono.scanQ_step hm, List.map_cons, List.map_nil]
        congr 1
        refine Mono.scanQ_no_star hs ?_
        intro c hcm
        exact tailJ_no_star hj c ((skipWs_suffix tailJ).subset hcm)
      | cons b2 bs'' =>
        subst hbs
        have hsk2 : skipWs (renderAll (b2 :: bs'') ++ tailJ) =
            renderAll (b2 :: bs'') ++ tailJ := by
          have h1 : renderAll (b2 :: bs'') ++ tailJ =
              '*' :: '*' :: ((b2.num ++ ('.' :: ' ' :: (b2.qt ++ ssLit))) ++
                (bodyB b2 ++ ((b2.sep ++ renderAll bs'') ++ tailJ))) := by
            have h2 : renderAll (b2 :: bs'') ++ tailJ =
                renderB b2 ++ ((b2.sep ++ renderAll bs'') ++ tailJ) := by
              simp [renderAll, List.append_assoc]
            rw [h2, renderB_shape]
          rw [h1]
          exact skipWs_cons_not (by decide) _
        rw [hsk2] at hm
        rw [Mono.scanQ_step hm, List.map_cons, hih]

/-! ### The split phase of app.py on rendered input -/

theorem App.matchHdr_ss_nodigit {l : List Char}
    (h : ∀ d, l.head? = some d → isDigitC d = false) :
    App.matchHdr ('*' :: '*' :: l) = none := by
  simp only [App.matchHdr, dropLit_ss, Option.some_bind]
  have htw : l.takeWhile isDigitC = [] := by
    cases l with
    | nil => rfl
    | cons d t => simp [List.takeWhile_cons, h d rfl]
  rw [if_pos htw]

theorem App.matchHdr_star_ne {l : List Char}
    (h : ∀ d, l.head? = some d → d ≠ '*') :
    App.matchHdr ('*' :: l) = none := by
  cases l with
  | nil => simp [App.matchHdr, ssLit, dropLit]
  | cons d t => simp [App.matchHdr, ssLit, dropLit, h d rfl]

theorem lazySearch_of_head {α : Type} {κ : List Char → Option α}
    {l : List Char} {a : α} (h : κ l = some a) :
    lazySearch κ l = some ([], a) := by
  cases l with
  | nil => simp [lazySearch, h]
  | cons c t => simp [lazySearch, h]

theorem App.matchHdr_renderB (b : Blk) (hb : SafeBlk b) (r : List Char) :
    App.matchHdr (renderB b ++ r) = some (capB b, bodyB b ++ r) := by
  have hshape : renderB b ++ r =
      '*' :: '*' :: (b.num ++ ('.' :: ' ' :: (b.qt ++
        ('*' :: '*' :: (bodyB b ++ r))))) := by
    simp [renderB, hdrB, ssLit, List.append_assoc]
  rw [hshape]
  obtain ⟨htake, hdrop⟩ :=
    takeWhile_digits hb.2.1 (show isDigitC '.' = false by decide)
      (' ' :: (b.qt ++ ('*' :: '*' :: (bodyB b ++ r))))
  have hls : lazySearch (fun v => dropLit ssLit v)
      (b.qt ++ ('*' :: '*' :: (bodyB b ++ r))) =
      some (b.qt, bodyB b ++ r) := by
    refine lazy_stop_raw _ b.qt ('*' :: '*' :: (bodyB b ++ r)) _ ?_ ?_
    · intro mid hm hne
      cases mid with
      | nil => exact absurd rfl hne
      | cons c u =>
        exact dropLit_ss_cons_ne (hb.2.2.1 c (hm.subset (by simp))) _
    · exact dropLit_ss _
  simp only [App.matchHdr, dropLit_ss, Option.some_bind, htake, hdrop,
    if_neg hb.1, decide_True, Bool.true_and,
    show isWs ' ' = true by decide, if_true]
  rw [hls]
  simp [capB]

theorem App.matchHdr_gap {sep R : List Char}
    (hsep : ∀ c ∈ sep, isWs c = true) (hR : GapNext R) :
    ∀ j, j <:+ ('*' :: '*' :: sep) → j ≠ [] →
      App.matchHdr (j ++ R) = none := by
  have hhead : ∀ d, (sep ++ R).head? = some d → isDigitC d = false := by
    intro d hd
    cases sep with
    | cons c t =>
      simp only [List.cons_append, List.head?_cons, Option.some.injEq] at hd
      exact hd ▸ ws_not_digit (hsep c (by simp))
    | nil =>
      simp only [List.nil_append] at hd
      rcases hR with rfl | ⟨z, rfl⟩ | h3
      · simp at hd
      · simp only [List.head?_cons, Option.some.injEq] at hd
        subst hd
        decide
      · exact (h3 d hd).2
  intro j hj hne
  rcases List.suffix_cons_iff.mp hj with rfl | hj2
  · have heq : ('*' :: '*' :: sep) ++ R = '*' :: '*' :: (sep ++ R) := by simp
    rw [heq]
    exact App.matchHdr_ss_nodigit hhead
  · rcases List.suffix_cons_iff.mp hj2 with rfl | hj3
    · cases sep with
      | cons c t =>
        rw [List.cons_append]
        refine App.matchHdr_star_ne ?_
        intro d hd
        rw [List.cons_append, List.head?_cons] at hd
        have hdc : d = c := by simpa using hd.symm
        subst hdc
        exact ws_not_star (hsep d (by simp))
      | nil =>
        rcases hR with rfl | ⟨z, rfl⟩ | h3
        · simp [App.matchHdr, ssLit, dropLit]
        · have heq : ('*' :: ([] : List Char)) ++ ('*' :: '*' :: z) =
              '*' :: '*' :: ('*' :: z) := by simp
          rw [heq]
          refine App.matchHdr_ss_nodigit ?_
          intro d hd
          have hdc : d = '*' := by simpa using hd.symm
          subst hdc
          decide
        · have heq : ('*' :: ([] : List Char)) ++ R = '*' :: R := by simp
          rw [heq]
          exact App.matchHdr_star_ne fun d hd => (h3 d hd).1
    · cases j with
      | nil => exact absurd rfl hne
      | cons c t =>
        rw [List.cons_append]
        exact App.matchHdr_cons_ne
          (ws_not_star (hsep c (hj3.subset (by simp)))) _

theorem noStar_optsB {b : Blk} (hb : SafeBlk b) :
    ∀ c ∈ optsB b, c ≠ '*' := by
  intro c hc
  simp only [optsB, optLine, List.mem_append, List.mem_cons] at hc
  rcases hc with (h | h | h | h) | h | (h | h | h | h) | h |
    (h | h | h | h) | h | (h | h | h | h)
  · subst h; decide
  · subst h; decide
  · subst h; decide
  · exact (hb.2.2.2.1.2.1 c h).1
  · subst h; decide
  · subst h; decide
  · subst h; decide
  · subst h; decide
  · exact (hb.2.2.2.2.1.2.1 c h).1
  · subst h; decide
  · subst h; decide
  · subst h; decide
  · subst h; decide
  · exact (hb.2.2.2.2.2.1.2.1 c h).1
  · subst h; decide
  · subst h; decide
  · subst h; decide
  · subst h; decide
  · exact (hb.2.2.2.2.2.2.1.2.1 c h).1

theorem App.noHdr_body (b : Blk) (hb : SafeBlk b) {R : List Char}
    (hR : GapNext R) :
    ∀ j, j <:+ (bodyB b ++ b.sep) → j ≠ [] →
      App.matchHdr (j ++ R) = none := by
  have hsep := hb.2.2.2.2.2.2.2.2
  have hshape : bodyB b ++ b.sep =
      '\n' :: (optsB b ++ ('\n' :: (markerB b ++ b.sep))) := by
    simp [bodyB, List.append_assoc]
  rw [hshape]
  intro j hj hne
  rcases List.suffix_cons_iff.mp hj with rfl | hj1
  · rw [List.cons_append]
    exact App.matchHdr_cons_ne (by decide) _
  rcases suffix_append_cases hj1 with hj2 | ⟨j', hj', hne', rfl⟩
  swap
  · obtain ⟨c, t, rfl⟩ : ∃ c t, j' = c :: t := by
      cases j' with
      | nil => exact absurd rfl hne'
      | cons c t => exact ⟨c, t, rfl⟩
    rw [List.cons_append, List.cons_append]
    exact App.matchHdr_cons_ne (noStar_optsB hb c (hj'.subset (by simp))) _
  rcases List.suffix_cons_iff.mp hj2 with rfl | hj3
  · rw [List.cons_append]
    exact App.matchHdr_cons_ne (by decide) _
  have hmk : markerB b ++ b.sep =
      App.caLitCS ++ (' ' :: (b.ansL :: (closerPart b ++ b.sep))) := by
    simp [markerB, List.append_assoc]
  rw [hmk] at hj3
  rcases suffix_append_cases hj3 with hj4 | ⟨j', hj', hne', rfl⟩
  swap
  · have hmem : j' ∈ App.caLitCS.tails := (List.mem_tails j' _).mpr hj'
    fin_cases hmem <;>
      simp only [List.cons_append, List.nil_append, List.append_assoc] <;>
      first
      | exact absurd rfl hne'
      | exact App.matchHdr_cons_ne (by decide) _
      | (refine App.matchHdr_ss_nodigit ?_
         intro d hd
         have hdc : d = 'C' := by simpa using hd.symm
         subst hdc
         decide)
      | (refine App.matchHdr_star_ne ?_
         intro d hd
         have hdc : d = 'C' := by simpa using hd.symm
         subst hdc
         decide)
  rcases List.suffix_cons_iff.mp hj4 with rfl | hj5
  · rw [List.cons_append]
    exact App.matchHdr_cons_ne (by decide) _
  rcases List.suffix_cons_iff.mp hj5 with rfl | hj6
  · rw [List.cons_append]
    have hansl : b.ansL ≠ '*' := by
      rcases hb.2.2.2.2.2.2.2.1 with h | h | h | h <;> rw [h] <;> decide
    exact App.matchHdr_cons_ne hansl _
  cases hcl : b.closer with
  | true =>
    rw [closerPart, if_pos hcl] at hj6
    exact App.matchHdr_gap hsep hR j (by simpa [ssLit] using hj6) hne
  | false =>
    rw [closerPart, if_neg (by simp [hcl])] at hj6
    simp only [List.nil_append] at hj6
    cases j with
    | nil => exact absurd rfl hne
    | cons c t =>
      rw [List.cons_append]
      exact App.matchHdr_cons_ne
        (ws_not_star (hsep c (hj6.subset (by simp)))) _

theorem App.splitPairs_none {l : List Char} (h : App.findHdr l = none) :
    App.splitPairs l = [] := by
  rw [App.splitPairs]
  cases hl : l with
  | nil => rfl
  | cons c t => simp [App.splitF, hl ▸ h]

theorem App.splitPairs_step {l pre cap rest : List Char}
    (h : App.findHdr l = some (pre, (cap, rest))) :
    App.splitPairs l =
      (cap, match App.findHdr rest with
            | none => rest
            | some (p2, _, _) => p2) :: App.splitPairs rest := by
  have hlt := App.findHdr_lt h
  simp only at hlt
  rw [App.splitPairs]
  simp only [App.splitF, h]
  congr 1
  exact (App.splitPairs_eq (show rest.length < l.length from hlt)).symm

/-- The `(header, content)` pairs `app.py`'s split produces on a rendered
input: the content of each block runs to the start of the next header, the
last block's content takes the rest of the input. -/
def pairsOf : List Blk → List Char → List (List Char × List Char)
  | [], _ => []
  | [b], tailJ => [(capB b, (bodyB b ++ b.sep) ++ tailJ)]
  | b :: bs, tailJ => (capB b, bodyB b ++ b.sep) :: pairsOf bs tailJ

theorem App.splitPairs_render :
    ∀ (bs : List Blk) (tailJ preJ : List Char),
      (∀ b ∈ bs, SafeBlk b) →
      (∀ c ∈ tailJ, isWs c = true ∨ c = tick) →
      (∀ j, j <:+ preJ → j ≠ [] →
        App.matchHdr (j ++ (renderAll bs ++ tailJ)) = none) →
      App.splitPairs (preJ ++ (renderAll bs ++ tailJ)) = pairsOf bs tailJ := by
  intro bs
  induction bs with
  | nil =>
    intro tailJ preJ _ hj hpre
    refine App.splitPairs_none (lazySearch_none ?_)
    intro v hv
    rcases suffix_append_cases hv with hv2 | ⟨j', hj', hne', rfl⟩
    · simp only [renderAll, List.nil_append] at hv2
      cases v with
      | nil => exact App.matchHdr_nil
      | cons c t =>
        exact App.matchHdr_cons_ne
          (tailJ_no_star hj c (hv2.subset (by simp))) t
    · exact hpre j' hj' hne'
  | cons b bs' ih =>
    intro tailJ preJ hsafe hj hpre
    have hb := hsafe b (by simp)
    have hshape : renderAll (b :: bs') ++ tailJ =
        renderB b ++ (b.sep ++ (renderAll bs' ++ tailJ)) := by
      simp [renderAll, List.append_assoc]
    have hGap : GapNext (renderAll bs' ++ tailJ) := gapNext_R hj
    have hmh := App.matchHdr_renderB b hb (b.sep ++ (renderAll bs' ++ tailJ))
    have hfh : App.findHdr (preJ ++ (renderAll (b :: bs') ++ tailJ)) =
        some (preJ, (capB b,
          bodyB b ++ (b.sep ++ (renderAll bs' ++ tailJ)))) := by
      rw [hshape, App.findHdr, lazySearch_skip _ preJ _ ?_]
      · rw [lazySearch_of_head hmh]
        simp
      · intro j hjj hne
        have h0 := hpre j hjj hne
        rw [hshape] at h0
        exact h0
    have hassoc : bodyB b ++ (b.sep ++ (renderAll bs' ++ tailJ)) =
        (bodyB b ++ b.sep) ++ (renderAll bs' ++ tailJ) := by
      simp [List.append_assoc]
    have hfh2 : App.findHdr
        (bodyB b ++ (b.sep ++ (renderAll bs' ++ tailJ))) =
        ((App.findHdr (renderAll bs' ++ tailJ)).map
          fun p => ((bodyB b ++ b.sep) ++ p.1, p.2)) := by
      rw [hassoc, App.findHdr, lazySearch_skip _ _ _
        (App.noHdr_body b hb hGap)]
      rfl
    rw [App.splitPairs_step hfh]
    have hrec : App.splitPairs
        (bodyB b ++ (b.sep ++ (renderAll bs' ++ tailJ))) =
        pairsOf bs' tailJ := by
      rw [hassoc]
      exact ih tailJ (bodyB b ++ b.sep)
        (fun b' hb' => hsafe b' (by simp [hb'])) hj
        (App.noHdr_body b hb hGap)
    rw [hrec]
    cases bs' with
    | nil =>
      have hnone : App.findHdr (renderAll ([] : List Blk) ++ tailJ) = none := by
        simp only [renderAll, List.nil_append]
        refine lazySearch_none fun v hv => ?_
        cases v with
        | nil => exact App.matchHdr_nil
        | cons c t =>
          exact App.matchHdr_cons_ne
            (tailJ_no_star hj c (hv.subset (by simp))) t
      rw [hnone] at hfh2
      simp only [Option.map_none'] at hfh2
      rw [hfh2]
      simp only [pairsOf]
      rw [hassoc]
      simp [renderAll]
    | cons b2 bs'' =>
      have hb2 := hsafe b2 (by simp)
      have hshape2 : renderAll (b2 :: bs'') ++ tailJ =
          renderB b2 ++ (b2.sep ++ (renderAll bs'' ++ tailJ)) := by
        simp [renderAll, List.append_assoc]
      have hsome : App.findHdr (renderAll (b2 :: bs'') ++ tailJ) =
          some ([], (capB b2,
            bodyB b2 ++ (b2.sep ++ (renderAll bs'' ++ tailJ)))) := by
        rw [hshape2, App.findHdr]
        exact lazySearch_of_head
          (App.matchHdr_renderB b2 hb2 (b2.sep ++ (renderAll bs'' ++ tailJ)))
      rw [hsome] at hfh2
      simp only [Option.map_some'] at hfh2
      rw [hfh2]
      simp [pairsOf]

/-! ### The search and findall phases of app.py on a rendered block body -/

theorem App.matchOA_head_ne {c : Char} (h : c ≠ 'A') (l : List Char) :
    App.matchOA (c :: l) = none := by
  cases l with
  | nil => rfl
  | cons d t => simp [App.matchOA, h]

theorem App.matchOpt_head_ne {c : Char} (h : App.upABCD c = false)
    (l : List Char) : App.matchOpt (c :: l) = none := by
  cases l with
  | nil => rfl
  | cons d t => simp [App.matchOpt, h]

theorem App.dropLit_caCS (z : List Char) :
    dropLit App.caLitCS (App.caLitCS ++ z) = some z := rfl

theorem not_ws_of_upABCD {c : Char} (h : App.upABCD c = true) :
    isWs c = false := by
  simp only [App.upABCD, Bool.or_eq_true, decide_eq_true_eq] at h
  rcases h with ((h | h) | h) | h <;> subst h <;> decide

theorem upABCD_not_star {c : Char} (h : App.upABCD c = true) : c ≠ '*' := by
  simp only [App.upABCD, Bool.or_eq_true, decide_eq_true_eq] at h
  rcases h with ((h | h) | h) | h <;> subst h <;> decide

theorem upABCD_of_safe {b : Blk} (hb : SafeBlk b) :
    App.upABCD b.ansL = true := by
  rcases hb.2.2.2.2.2.2.2.1 with h | h | h | h <;> simp [App.upABCD, h]

theorem mem_optLine {c lab : Char} {t : List Char} (h : c ∈ optLine lab t) :
    c = lab ∨ c = ')' ∨ c = ' ' ∨ c ∈ t := by
  simp only [optLine, List.mem_cons] at h
  tauto

theorem optLine_no_star {lab c : Char} {t : List Char}
    (hlab : lab ≠ '*') (ht : SafeTxt t) (h : c ∈ optLine lab t) :
    c ≠ '*' := by
  rcases mem_optLine h with rfl | rfl | rfl | h'
  · exact hlab
  · decide
  · decide
  · exact (ht.2.1 c h').1

theorem App.lookOpt_nil : App.lookOpt [] = true := by decide

theorem App.lookOpt_nl_optLine (lab : Char) (hlab : App.upABCD lab = true)
    (t rest : List Char) :
    App.lookOpt ('\n' :: (optLine lab t ++ rest)) = true := by
  have he : '\n' :: (optLine lab t ++ rest) =
      '\n' :: (lab :: (')' :: (' ' :: (t ++ rest)))) := by
    simp [optLine]
  rw [he]
  have hsk : skipWs ('\n' :: (lab :: (')' :: (' ' :: (t ++ rest))))) =
      lab :: (')' :: (' ' :: (t ++ rest))) := by
    rw [skipWs, List.dropWhile_cons, if_pos (by decide)]
    exact skipWs_cons_not (not_ws_of_upABCD hlab) _
  simp [App.lookOpt, hsk, hlab]

theorem App.matchOpt_optLine (lab : Char) (hlab : App.upABCD lab = true)
    (t rest : List Char) (ht : SafeTxt t)
    (hhead : rest = [] ∨ rest.head? = some '\n')
    (hhit : App.lookOpt rest = true) :
    App.matchOpt (optLine lab t ++ rest) = some (optLine lab t, rest) := by
  have he : optLine lab t ++ rest = lab :: (')' :: (' ' :: (t ++ rest))) := by
    simp [optLine]
  rw [he]
  simp only [App.matchOpt]
  rw [if_pos (by simp [hlab])]
  have hls : lazySearch (fun v => if App.lookOpt v then some v else none)
      (t ++ rest) = some (t, rest) := by
    refine lazy_stop_raw _ t rest rest ?_ ?_
    · intro mid hm hne
      obtain ⟨c, u, heq, hsuf, hw⟩ := skipWs_region ht.2.2 mid hm hne rest
      have hlook : App.lookOpt (mid ++ rest) = false := by
        simp only [App.lookOpt, heq]
        cases u with
        | nil =>
          rcases hhead with rfl | hh
          · simp
          · cases rest with
            | nil => simp at hh
            | cons r0 rr =>
              have hr0 : r0 = '\n' := by simpa using hh
              subst hr0
              simp
        | cons e u' =>
          have he2 : e ≠ ')' := (ht.2.1 e (hsuf.subset (by simp))).2
          simp [he2]
      simp [hlook]
    · simp [hhit]
  simp only [lazySearch1, hls, Option.map_some']
  simp [optLine]

theorem App.findOpts_nil : App.findOpts [] = [] := rfl

theorem App.findOpts_step {l o rest : List Char}
    (h : App.matchOpt l = some (o, rest)) :
    App.findOpts l = o :: App.findOpts rest := by
  have hlt := App.matchOpt_lt h
  simp only at hlt
  rw [App.findOpts]
  simp only [App.optsF, h]
  rw [← App.findOpts_eq (show rest.length < l.length from hlt)]

theorem App.findOpts_cons_skip {c : Char} {t : List Char}
    (h : App.matchOpt (c :: t) = none) :
    App.findOpts (c :: t) = App.findOpts t := by
  rw [App.findOpts]
  show App.optsF (t.length + 1 + 1) (c :: t) = _
  simp only [App.optsF, h]
  rfl

theorem App.findOpts_optsB (b : Blk) (hb : SafeBlk b) :
    App.findOpts (optsB b) =
      [optLine 'A' b.t1, optLine 'B' b.t2, optLine 'C' b.t3,
       optLine 'D' b.t4] := by
  have h1 := hb.2.2.2.1
  have h2 := hb.2.2.2.2.1
  have h3 := hb.2.2.2.2.2.1
  have h4 := hb.2.2.2.2.2.2.1
  have hA : App.matchOpt (optsB b) =
      some (optLine 'A' b.t1,
        '\n' :: (optLine 'B' b.t2 ++ ('\n' :: (optLine 'C' b.t3 ++
          ('\n' :: optLine 'D' b.t4))))) :=
    App.matchOpt_optLine 'A' (by decide) b.t1 _ h1 (Or.inr rfl)
      (App.lookOpt_nl_optLine 'B' (by decide) b.t2 _)
  have hB : App.matchOpt (optLine 'B' b.t2 ++ ('\n' :: (optLine 'C' b.t3 ++
      ('\n' :: optLine 'D' b.t4)))) =
      some (optLine 'B' b.t2,
        '\n' :: (optLine 'C' b.t3 ++ ('\n' :: optLine 'D' b.t4))) :=
    App.matchOpt_optLine 'B' (by decide) b.t2 _ h2 (Or.inr rfl)
      (App.lookOpt_nl_optLine 'C' (by decide) b.t3 _)
  have hC : App.matchOpt (optLine 'C' b.t3 ++ ('\n' :: optLine 'D' b.t4)) =
      some (optLine 'C' b.t3, '\n' :: optLine 'D' b.t4) :=
    App.matchOpt_optLine 'C' (by decide) b.t3 _ h3 (Or.inr rfl)
      (App.lookOpt_nl_optLine 'D' (by decide) b.t4 [])
  have hD : App.matchOpt (optLine 'D' b.t4) =
      some (optLine 'D' b.t4, []) := by
    have := App.matchOpt_optLine 'D' (by decide) b.t4 [] h4 (Or.inl rfl)
      App.lookOpt_nil
    simpa using this
  rw [App.findOpts_step hA,
      App.findOpts_cons_skip (App.matchOpt_head_ne (by decide) _),
      App.findOpts_step hB,
      App.findOpts_cons_skip (App.matchOpt_head_ne (by decide) _),
      App.findOpts_step hC,
      App.findOpts_cons_skip (App.matchOpt_head_ne (by decide) _),
      App.findOpts_step hD, App.findOpts_nil]

theorem App.ansCS_marker (b : Blk) (hb : SafeBlk b) (w : List Char) :
    App.ansCS (markerB b ++ w) =
      some (b.ansL, skipWs (closerPart b ++ w)) := by
  have h1 : markerB b ++ w =
      App.caLitCS ++ (' ' :: b.ansL :: (closerPart b ++ w)) := by
    simp [markerB, List.append_assoc]
  rw [h1]
  simp only [App.ansCS, App.dropLit_caCS, Option.some_bind]
  have h2 : skipWs (' ' :: b.ansL :: (closerPart b ++ w)) =
      b.ansL :: (closerPart b ++ w) := by
    rw [skipWs, List.dropWhile_cons, if_pos (by decide)]
    exact skipWs_cons_not (not_ws_of_upABCD (upABCD_of_safe hb)) _
  rw [h2]
  simp [upABCD_of_safe hb]

theorem App.findOA_body (b : Blk) (hb : SafeBlk b) (w : List Char) :
    App.findOA (bodyB b ++ w) = some (optsB b, b.ansL) := by
  have h1 := hb.2.2.2.1
  have h2 := hb.2.2.2.2.1
  have h3 := hb.2.2.2.2.2.1
  have h4 := hb.2.2.2.2.2.2.1
  have hbody : bodyB b ++ w =
      '\n' :: (optsB b ++ ('\n' :: (markerB b ++ w))) := by
    simp [bodyB, List.append_assoc]
  have hT : optsB b ++ ('\n' :: (markerB b ++ w)) =
      'A' :: (')' :: (' ' ::
        ((b.t1 ++ ('\n' :: (optLine 'B' b.t2 ++ ('\n' :: (optLine 'C' b.t3 ++
          ('\n' :: optLine 'D' b.t4)))))) ++ ('\n' :: (markerB b ++ w))))) := by
    simp [optsB, optLine, List.append_assoc]
  have hT4 : b.t4 <:+
      b.t1 ++ ('\n' :: (optLine 'B' b.t2 ++ ('\n' :: (optLine 'C' b.t3 ++
        ('\n' :: optLine 'D' b.t4))))) := by
    have s1 : b.t4 <:+ optLine 'D' b.t4 := ⟨['D', ')', ' '], rfl⟩
    have s2 : optLine 'D' b.t4 <:+ '\n' :: optLine 'D' b.t4 :=
      List.suffix_cons _ _
    have s3 : ('\n' :: optLine 'D' b.t4) <:+
        optLine 'C' b.t3 ++ ('\n' :: optLine 'D' b.t4) :=
      List.suffix_append _ _
    have s4 : (optLine 'C' b.t3 ++ ('\n' :: optLine 'D' b.t4)) <:+
        '\n' :: (optLine 'C' b.t3 ++ ('\n' :: optLine 'D' b.t4)) :=
      List.suffix_cons _ _
    have s5 : ('\n' :: (optLine 'C' b.t3 ++ ('\n' :: optLine 'D' b.t4))) <:+
        optLine 'B' b.t2 ++ ('\n' :: (optLine 'C' b.t3 ++
          ('\n' :: optLine 'D' b.t4))) :=
      List.suffix_append _ _
    have s6 : (optLine 'B' b.t2 ++ ('\n' :: (optLine 'C' b.t3 ++
        ('\n' :: optLine 'D' b.t4)))) <:+
        '\n' :: (optLine 'B' b.t2 ++ ('\n' :: (optLine 'C' b.t3 ++
          ('\n' :: optLine 'D' b.t4)))) :=
      List.suffix_cons _ _
    have s7 : ('\n' :: (optLine 'B' b.t2 ++ ('\n' :: (optLine 'C' b.t3 ++
        ('\n' :: optLine 'D' b.t4))))) <:+
        b.t1 ++ ('\n' :: (optLine 'B' b.t2 ++ ('\n' :: (optLine 'C' b.t3 ++
          ('\n' :: optLine 'D' b.t4))))) :=
      List.suffix_append _ _
    exact ((((((s1.trans s2).trans s3).trans s4).trans s5).trans s6).trans s7)
  have hTlast : ∀ c,
      (b.t1 ++ ('\n' :: (optLine 'B' b.t2 ++ ('\n' :: (optLine 'C' b.t3 ++
        ('\n' :: optLine 'D' b.t4)))))).getLast? = some c →
      isWs c = false := by
    intro c hc
    have hgl := getLast?_suffix hT4 h4.1
    rw [hgl] at hc
    exact h4.2.2 c hc
  have hTmem : ∀ c ∈
      b.t1 ++ ('\n' :: (optLine 'B' b.t2 ++ ('\n' :: (optLine 'C' b.t3 ++
        ('\n' :: optLine 'D' b.t4))))), c ≠ '*' := by
    intro c hc
    rcases List.mem_append.mp hc with hc | hc
    · exact (h1.2.1 c hc).1
    rcases List.mem_cons.mp hc with rfl | hc
    · decide
    rcases List.mem_append.mp hc with hc | hc
    · exact optLine_no_star (by decide) h2 hc
    rcases List.mem_cons.mp hc with rfl | hc
    · decide
    rcases List.mem_append.mp hc with hc | hc
    · exact optLine_no_star (by decide) h3 hc
    rcases List.mem_cons.mp hc with rfl | hc
    · decide
    · exact optLine_no_star (by decide) h4 hc
  have hhit : App.ansCS (skipWs ('\n' :: (markerB b ++ w))) =
      some (b.ansL, skipWs (closerPart b ++ w)) := by
    have hsk : skipWs ('\n' :: (markerB b ++ w)) = markerB b ++ w := by
      rw [skipWs, List.dropWhile_cons, if_pos (by decide)]
      rw [show markerB b ++ w =
        App.caLitCS ++ ((' ' :: b.ansL :: closerPart b) ++ w) from by
          simp [markerB]]
      exact skipWs_marker _
    rw [hsk]
    exact App.ansCS_marker b hb w
  have hls : lazySearch (fun v => App.ansCS (skipWs v))
      ((b.t1 ++ ('\n' :: (optLine 'B' b.t2 ++ ('\n' :: (optLine 'C' b.t3 ++
        ('\n' :: optLine 'D' b.t4)))))) ++ ('\n' :: (markerB b ++ w))) =
      some (b.t1 ++ ('\n' :: (optLine 'B' b.t2 ++ ('\n' :: (optLine 'C' b.t3 ++
        ('\n' :: optLine 'D' b.t4))))),
        (b.ansL, skipWs (closerPart b ++ w))) := by
    refine lazy_stop_raw _ _ _ _ ?_ hhit
    intro mid hm hne
    obtain ⟨c, u, heq, hsuf, hw⟩ := skipWs_region hTlast mid hm hne _
    show App.ansCS (skipWs (mid ++ ('\n' :: (markerB b ++ w)))) = none
    rw [heq]
    exact App.ansCS_cons_ne (hTmem c (hsuf.subset (by simp))) _
  have hmA : App.matchOA (optsB b ++ ('\n' :: (markerB b ++ w))) =
      some (optsB b, b.ansL) := by
    rw [hT]
    simp only [App.matchOA]
    rw [if_pos (by decide)]
    simp only [lazySearch1, hls, Option.map_some']
    simp [optsB, optLine, List.append_assoc]
  rw [hbody, App.findOA]
  rw [show '\n' :: (optsB b ++ ('\n' :: (markerB b ++ w))) =
    ['\n'] ++ (optsB b ++ ('\n' :: (markerB b ++ w))) from rfl]
  rw [lazySearch_skip _ ['\n'] _ ?_]
  · rw [lazySearch_of_head hmA]
    simp
  · intro j hj hne
    rcases List.suffix_cons_iff.mp hj with rfl | hj2
    · exact App.matchOA_head_ne (by decide) _
    · rw [List.suffix_nil] at hj2
      exact absurd hj2 hne

theorem App.pair_record (b : Blk) (hb : SafeBlk b) (w : List Char) :
    ((App.findOA (bodyB b ++ w)).map fun oa =>
      ({ question_text := String.mk (trimWs (capB b))
         options_text := String.mk (App.joinStrip (App.findOpts oa.1))
         correct_answer := String.mk [oa.2] } : Question)) =
      some (mkQuestion (intendedG b)) := by
  rw [App.findOA_body b hb w]
  simp only [Option.map_some']
  rw [App.findOpts_optsB b hb]
  simp [mkQuestion, intendedG, App.joinStrip, capB]

theorem App.filterMap_pairsOf (tailJ : List Char) :
    ∀ bs : List Blk, (∀ b ∈ bs, SafeBlk b) →
      ((pairsOf bs tailJ).filterMap fun qc =>
        (App.findOA qc.2).map fun oa =>
          ({ question_text := String.mk (trimWs qc.1)
             options_text := String.mk (App.joinStrip (App.findOpts oa.1))
             correct_answer := String.mk [oa.2] } : Question)) =
      bs.map fun b => mkQuestion (intendedG b) := by
  intro bs
  induction bs with
  | nil => intro _; rfl
  | cons b bs' ih =>
    intro hsafe
    have hb := hsafe b (by simp)
    cases bs' with
    | nil =>
      show List.filterMap _ [(capB b, (bodyB b ++ b.sep) ++ tailJ)] = _
      rw [List.filterMap_cons]
      have hfa : ((App.findOA ((bodyB b ++ b.sep) ++ tailJ)).map fun oa =>
          ({ question_text := String.mk (trimWs (capB b))
             options_text := String.mk (App.joinStrip (App.findOpts oa.1))
             correct_answer := String.mk [oa.2] } : Question)) =
          some (mkQuestion (intendedG b)) := by
        rw [List.append_assoc]
        exact App.pair_record b hb (b.sep ++ tailJ)
      rw [hfa]
      rfl
    | cons b2 bs'' =>
      show List.filterMap _
        ((capB b, bodyB b ++ b.sep) :: pairsOf (b2 :: bs'') tailJ) = _
      rw [List.filterMap_cons]
      have hfa : ((App.findOA (bodyB b ++ b.sep)).map fun oa =>
          ({ question_text := String.mk (trimWs (capB b))
             options_text := String.mk (App.joinStrip (App.findOpts oa.1))
             correct_answer := String.mk [oa.2] } : Question)) =
          some (mkQuestion (intendedG b)) :=
        App.pair_record b hb b.sep
      rw [hfa, ih fun b' hb' => hsafe b' (by simp [hb'])]
      rfl

theorem App.parse_renderAll (preJ tailJ : List Char) (bs : List Blk)
    (hpre : ∀ c ∈ preJ, c ≠ '*')
    (hsafe : ∀ b ∈ bs, SafeBlk b)
    (hj : ∀ c ∈ tailJ, isWs c = true ∨ c = tick) :
    App.parse_questions (String.mk (preJ ++ (renderAll bs ++ tailJ))) =
      bs.map fun b => mkQuestion (intendedG b) := by
  rw [App.parse_questions]
  rw [show (String.mk (preJ ++ (renderAll bs ++ tailJ))).data =
    preJ ++ (renderAll bs ++ tailJ) from rfl]
  rw [App.splitPairs_render bs tailJ preJ hsafe hj ?_]
  · exact App.filterMap_pairsOf tailJ bs hsafe
  · intro j hjj hne
    cases j with
    | nil => exact absurd rfl hne
    | cons c t =>
      exact App.matchHdr_cons_ne (hpre c (hjj.subset (by simp))) _

/-! ### The three extractors on a rendered input -/

theorem Mono.scanQ_pre (hs : Char → Bool) (pre next : List Char)
    (h : ∀ c ∈ pre, c ≠ '*') :
    Mono.scanQ hs (pre ++ next) = Mono.scanQ hs next := by
  refine Mono.scanQ_skip hs pre next ?_
  intro j hj hne
  cases j with
  | nil => exact absurd rfl hne
  | cons c t =>
    rw [List.cons_append]
    exact Mono.matchAt_cons_ne hs (h c (hj.subset (by simp))) _

theorem ws_not_tick {c : Char} (h : isWs c = true) : c ≠ tick := by
  simp only [isWs, Bool.or_eq_true, decide_eq_true_eq] at h
  rcases h with ((((h | h) | h) | h) | h) | h <;> subst h <;> decide

theorem wsTick_not_star {preJ : List Char}
    (h : ∀ c ∈ preJ, isWs c = true ∨ c = tick) : ∀ c ∈ preJ, c ≠ '*' := by
  intro c hc
  rcases h c hc with h2 | h2
  · exact ws_not_star h2
  · subst h2; exact tick_not_star

theorem containsTicks_eq_false {l : List Char} (h : ∀ c ∈ l, c ≠ tick) :
    containsTicks l = false := by
  induction l with
  | nil => rfl
  | cons c t ih =>
    simp only [containsTicks, Bool.or_eq_false_iff]
    constructor
    · simp [h c (by simp)]
    · exact ih fun d hd => h d (by simp [hd])

theorem App1.parse_render (bs : List Blk) (pre post : List Char)
    (hsafe : ∀ b ∈ bs, SafeBlk b)
    (hpre : ∀ c ∈ pre, isWs c = true ∨ c = tick)
    (hpost : ∀ c ∈ post, isWs c = true ∨ c = tick) :
    App1.parse_questions (String.mk (pre ++ (renderAll bs ++ post))) =
      bs.map fun b => mkQuestion (intendedG b) := by
  rw [App1.parse_questions]
  rw [show (String.mk (pre ++ (renderAll bs ++ post))).data =
    pre ++ (renderAll bs ++ post) from rfl]
  rw [Mono.scanQ_pre isWs pre _ (wsTick_not_star hpre),
      Mono.scanQ_renderAll isWs (by decide) bs post hsafe hpost,
      List.map_map]
  rfl

theorem App2.generate_render (bs : List Blk) (pre post : List Char)
    (hsafe : ∀ b ∈ bs, SafeBlk b)
    (hpre : ∀ c ∈ pre, isWs c = true ∨ c = tick)
    (hpost : ∀ c ∈ post, isWs c = true ∨ c = tick)
    (hnil : bs = [] →
      (∀ c ∈ pre, isWs c = true) ∧ (∀ c ∈ post, isWs c = true)) :
    App2.generate_questions (String.mk (pre ++ (renderAll bs ++ post))) =
      bs.map fun b => mkQuestion (intendedG b) := by
  have hms : Mono.scanQ isSp (pre ++ (renderAll bs ++ post)) =
      bs.map intendedG := by
    rw [Mono.scanQ_pre isSp pre _ (wsTick_not_star hpre)]
    exact Mono.scanQ_renderAll isSp (by decide) bs post hsafe hpost
  cases bs with
  | nil =>
    obtain ⟨hp, hq⟩ := hnil rfl
    have hct : containsTicks (pre ++ (renderAll [] ++ post)) = false := by
      refine containsTicks_eq_false fun c hc => ?_
      simp only [renderAll, List.nil_append, List.mem_append] at hc
      rcases hc with hc | hc
      · exact ws_not_tick (hp c hc)
      · exact ws_not_tick (hq c hc)
    simp [App2.generate_questions, hms, hct]
  | cons b bs' =>
    have hne : intendedG b :: bs'.map intendedG ≠ [] := by simp
    simp only [App2.generate_questions]
    simp only [hms]
    rw [if_neg (by simp)]
    rw [List.map_map]
    rfl

/-! ### Concrete blocks used as witnesses -/

def blkOne : Blk :=
  ⟨['1'], "What is 2+2?".data, ['3'], ['4'], ['5'], ['6'], 'B', true, ['\n']⟩

def blkTwo : Blk :=
  ⟨['2'], "Capital of France?".data, "Paris".data, "Rome".data,
   "Berlin".data, "Madrid".data, 'A', true, ['\n']⟩

/-- The opening fence line of a wrapped input. -/
def fenceOpen : List Char := [tick, tick, tick, '\n']

/-- The closing fence line of a wrapped input. -/
def fenceClose : List Char := '\n' :: [tick, tick, tick]

/-- A block with its closing `**` after the answer letter set as given. -/
def setCloser (b : Blk) (v : Bool) : Blk :=
  ⟨b.num, b.qt, b.t1, b.t2, b.t3, b.t4, b.ansL, v, b.sep⟩

/-- C8: for every input consisting of well-formed blocks following the
expected convention, separated by whitespace and with optional surrounding
whitespace, each of the three extractors yields exactly one record per
block, in input order (so `n` blocks yield `n` records). -/
theorem c8_one_record_per_block_in_order (bs : List Blk)
    (pre post : List Char)
    (hsafe : ∀ b ∈ bs, SafeBlk b)
    (hpre : ∀ c ∈ pre, isWs c = true)
    (hpost : ∀ c ∈ post, isWs c = true) :
    App1.parse_questions (String.mk (pre ++ (renderAll bs ++ post))) =
        bs.map (fun b => mkQuestion (intendedG b)) ∧
    App2.generate_questions (String.mk (pre ++ (renderAll bs ++ post))) =
        bs.map (fun b => mkQuestion (intendedG b)) ∧
    App.parse_questions (String.mk (pre ++ (renderAll bs ++ post))) =
        bs.map (fun b => mkQuestion (intendedG b)) := by
  have hpre2 : ∀ c ∈ pre, isWs c = true ∨ c = tick :=
    fun c hc => Or.inl (hpre c hc)
  have hpost2 : ∀ c ∈ post, isWs c = true ∨ c = tick :=
    fun c hc => Or.inl (hpost c hc)
  exact ⟨App1.parse_render bs pre post hsafe hpre2 hpost2,
    App2.generate_render bs pre post hsafe hpre2 hpost2
      (fun _ => ⟨hpre, hpost⟩),
    App.parse_renderAll pre post bs (wsTick_not_star hpre2) hsafe hpost2⟩

theorem c8_witness :
    ((∀ b ∈ [blkOne, blkTwo], SafeBlk b) ∧
     (∀ c ∈ ([] : List Char), isWs c = true) ∧
     (∀ c ∈ ['\n'], isWs c = true)) ∧
    (App1.parse_questions
        (String.mk ([] ++ (renderAll [blkOne, blkTwo] ++ ['\n']))) =
        [blkOne, blkTwo].map (fun b => mkQuestion (intendedG b)) ∧
     App2.generate_questions
        (String.mk ([] ++ (renderAll [blkOne, blkTwo] ++ ['\n']))) =
        [blkOne, blkTwo].map (fun b => mkQuestion (intendedG b)) ∧
     App.parse_questions
        (String.mk ([] ++ (renderAll [blkOne, blkTwo] ++ ['\n']))) =
        [blkOne, blkTwo].map (fun b => mkQuestion (intendedG b))) :=
  ⟨⟨by decide, by decide, by decide⟩,
   c8_one_record_per_block_in_order [blkOne, blkTwo] [] ['\n']
     (by decide) (by decide) (by decide)⟩

/-- C7: wrapping an input of well-formed blocks entirely in a ``` fence
changes the result of none of the three extractors. -/
theorem c7_fence_wrapper_same (bs : List Blk)
    (hsafe : ∀ b ∈ bs, SafeBlk b) :
    (App1.parse_questions
        (String.mk (fenceOpen ++ (renderAll bs ++ fenceClose))) =
      App1.parse_questions (String.mk (renderAll bs))) ∧
    (App2.generate_questions
        (String.mk (fenceOpen ++ (renderAll bs ++ fenceClose))) =
      App2.generate_questions (String.mk (renderAll bs))) ∧
    (App.parse_questions
        (String.mk (fenceOpen ++ (renderAll bs ++ fenceClose))) =
      App.parse_questions (String.mk (renderAll bs))) := by
  have hopen : ∀ c ∈ fenceOpen, isWs c = true ∨ c = tick := by decide
  have hclose : ∀ c ∈ fenceClose, isWs c = true ∨ c = tick := by decide
  have hplain : String.mk (renderAll bs) =
      String.mk ([] ++ (renderAll bs ++ [])) := by simp
  refine ⟨?_, ?_, ?_⟩
  · rw [App1.parse_render bs fenceOpen fenceClose hsafe hopen hclose,
      hplain, App1.parse_render bs [] [] hsafe (by simp) (by simp)]
  · cases bs with
    | nil => decide
    | cons b bs' =>
      rw [App2.generate_render (b :: bs') fenceOpen fenceClose hsafe
          hopen hclose (fun h => absurd h (by simp)), hplain,
        App2.generate_render (b :: bs') [] [] hsafe (by simp) (by simp)
          (fun h => absurd h (by simp))]
  · rw [App.parse_renderAll fenceOpen fenceClose bs
      (wsTick_not_star hopen) hsafe hclose, hplain,
      App.parse_renderAll [] [] bs (by simp) hsafe (by simp)]

theorem c7_witness :
    (∀ b ∈ [blkOne], SafeBlk b) ∧
    ((App1.parse_questions
        (String.mk (fenceOpen ++ (renderAll [blkOne] ++ fenceClose))) =
      App1.parse_questions (String.mk (renderAll [blkOne]))) ∧
     (App2.generate_questions
        (String.mk (fenceOpen ++ (renderAll [blkOne] ++ fenceClose))) =
      App2.generate_questions (String.mk (renderAll [blkOne]))) ∧
     (App.parse_questions
        (String.mk (fenceOpen ++ (renderAll [blkOne] ++ fenceClose))) =
      App.parse_questions (String.mk (renderAll [blkOne])))) :=
  ⟨by decide, c7_fence_wrapper_same [blkOne] (by decide)⟩

/-- C10: the closing `**` after the answer letter is optional: with or
without it, each of the three extractors yields the one intended record of
the block. -/
theorem c10_closer_optional (b : Blk) (hb : SafeBlk b) :
    ∀ v : Bool,
      App1.parse_questions (String.mk (renderAll [setCloser b v])) =
          [mkQuestion (intendedG b)] ∧
      App2.generate_questions (String.mk (renderAll [setCloser b v])) =
          [mkQuestion (intendedG b)] ∧
      App.parse_questions (String.mk (renderAll [setCloser b v])) =
          [mkQuestion (intendedG b)] := by
  intro v
  have hb2 : SafeBlk (setCloser b v) := hb
  have hsafe : ∀ x ∈ [setCloser b v], SafeBlk x := by
    intro x hx
    rw [List.mem_singleton] at hx
    subst hx
    exact hb2
  have hG : intendedG (setCloser b v) = intendedG b := rfl
  have h1 := App1.parse_render [setCloser b v] [] [] hsafe
    (by simp) (by simp)
  have h2 := App2.generate_render [setCloser b v] [] [] hsafe
    (by simp) (by simp) (fun h => absurd h (by simp))
  have h3 := App.parse_renderAll [] [] [setCloser b v]
    (by simp) hsafe (by simp)
  exact ⟨by simpa [hG] using h1, by simpa [hG] using h2,
    by simpa [hG] using h3⟩

theorem c10_witness :
    SafeBlk blkOne ∧
    (∀ v : Bool,
      App1.parse_questions (String.mk (renderAll [setCloser blkOne v])) =
          [mkQuestion (intendedG blkOne)] ∧
      App2.generate_questions
          (String.mk (renderAll [setCloser blkOne v])) =
          [mkQuestion (intendedG blkOne)] ∧
      App.parse_questions (String.mk (renderAll [setCloser blkOne v])) =
          [mkQuestion (intendedG blkOne)]) :=
  ⟨by decide, c10_closer_optional blkOne (by decide)⟩
